import Mathlib

/-!
# Verification of the makfy execution core

Shallow embedding of the makfy task runner's execution engine and proofs of
the specification claims about it.  Each definition mirrors a function of the
TypeScript source:

* `src/lib/utils/hash.ts` — hash collections and change-detection deltas;
* `src/lib/utils/promise.ts` — the bounded concurrency limiter;
* `src/lib/utils/OutputBuffer.ts` — the output multiplexer's flush routine;
* `src/lib/execRuntime.ts` — the execution-tree scheduler, context forking,
  subprocess spawn planning and environment composition.

JavaScript objects used as string-keyed maps are modelled as association
lists in insertion order (`JsObj`), JavaScript `Set`-based deduplication as
first-occurrence deduplication (`dedupFirst`), and strings that the source
manipulates character by character as `List Char`.
-/

namespace Makfy

/-! ## JavaScript object model

A JS object literal used as a map: association list in insertion order with
unique keys.  `jsGet` is property lookup, `jsSet` is property assignment
(overwrites in place, appends if absent) — the semantics of `o[k] = v`. -/

abbrev JsObj (κ : Type) (ν : Type) := List (κ × ν)

def jsGet {κ ν : Type} [DecidableEq κ] : JsObj κ ν → κ → Option ν
  | [], _ => none
  | (k', v) :: rest, k => if k' = k then some v else jsGet rest k

def jsSet {κ ν : Type} [DecidableEq κ] : JsObj κ ν → κ → ν → JsObj κ ν
  | [], k, v => [(k, v)]
  | (k', v') :: rest, k, v =>
    if k' = k then (k', v) :: rest else (k', v') :: jsSet rest k v

/-- `Object.keys`, in insertion order. -/
def objKeys {κ ν : Type} (o : JsObj κ ν) : List κ := o.map Prod.fst

/-- Object spread `{...a, ...b}`: entries of `b` assigned over `a`, later
keys winning. -/
def jsSpread {κ ν : Type} [DecidableEq κ] (a b : JsObj κ ν) : JsObj κ ν :=
  b.foldl (fun acc p => jsSet acc p.1 p.2) a

/-- First-occurrence deduplication: the order in which a JS `Set`
enumerates `new Set([...xs])`. -/
def dedupFirst {α : Type} [DecidableEq α] : List α → List α
  | [] => []
  | a :: l => a :: dedupFirst (l.filter (fun x => x ≠ a))
termination_by l => l.length
decreasing_by
  simp only [List.length_cons]
  exact Nat.lt_succ_of_le (List.length_filter_le _ _)

/-! ## Hash collections (`src/lib/utils/hash.ts`) -/

/-- `export type HashType = 'sha1'` — the only supported algorithm. -/
inductive HashType where
  | sha1 : HashType
deriving DecidableEq, Repr

/-- `HashEntry`: content digest (absent when only the size was checked) plus
byte size. -/
structure HashEntry where
  hash : Option String
  size : Nat
deriving DecidableEq, Repr

abbrev Hashes := JsObj String HashEntry

/-- `HashCollection`: algorithm tag plus path → entry mapping. -/
structure HashCollection where
  hashType : HashType
  hashes : Hashes
deriving DecidableEq, Repr

/-- `GetFileChangesResult` of `src/lib/schema/runtime.ts`. -/
structure GetFileChangesResult where
  hasChanges : Bool
  cleanRun : Bool
  removed : List String
  modified : List String
  unmodified : List String
  added : List String
deriving DecidableEq, Repr

/-- One iteration of the `for (const e of union)` loop of
`getHashCollectionDelta`. -/
def classifyStep (oldH newH : Hashes) (acc : GetFileChangesResult) (p : String) :
    Except String GetFileChangesResult :=
  match jsGet oldH p, jsGet newH p with
  | some oe, some ne =>
    if oe.size = ne.size ∧ oe.hash = ne.hash then
      .ok { acc with unmodified := acc.unmodified ++ [p] }
    else
      .ok { acc with hasChanges := true, modified := acc.modified ++ [p] }
  | some _, none => .ok { acc with hasChanges := true, removed := acc.removed ++ [p] }
  | none, some _ => .ok { acc with hasChanges := true, added := acc.added ++ [p] }
  | none, none => .error "no old and no new hash, this should not happen"

def classifyAll (oldH newH : Hashes) :
    GetFileChangesResult → List String → Except String GetFileChangesResult
  | acc, [] => .ok acc
  | acc, p :: rest =>
    match classifyStep oldH newH acc p with
    | .error e => .error e
    | .ok acc' => classifyAll oldH newH acc' rest

/-- `getHashCollectionDelta` of `src/lib/utils/hash.ts`: no prior collection
means a clean run reporting every current file as added; otherwise every path
in the (first-occurrence deduplicated) union of old and new key sets is
classified. -/
def getHashCollectionDelta (old : Option HashCollection) (newC : HashCollection) :
    Except String GetFileChangesResult :=
  match old with
  | none =>
    .ok { hasChanges := true, cleanRun := true, removed := [], modified := [],
          unmodified := [], added := objKeys newC.hashes }
  | some oldC =>
    if oldC.hashType = newC.hashType then
      classifyAll oldC.hashes newC.hashes
        { hasChanges := false, cleanRun := false, removed := [], modified := [],
          unmodified := [], added := [] }
        (dedupFirst (objKeys oldC.hashes ++ objKeys newC.hashes))
    else
      .error "hash type mistmatch"

/-! ### Classification predicates for the delta loop -/

/-- Present in both collections with equal size and equal digest. -/
def unmodifiedP (oldH newH : Hashes) (p : String) : Bool :=
  match jsGet oldH p, jsGet newH p with
  | some oe, some ne => decide (oe.size = ne.size ∧ oe.hash = ne.hash)
  | _, _ => false

/-- Present in both collections but differing in size or digest. -/
def modifiedP (oldH newH : Hashes) (p : String) : Bool :=
  match jsGet oldH p, jsGet newH p with
  | some oe, some ne => !decide (oe.size = ne.size ∧ oe.hash = ne.hash)
  | _, _ => false

/-- Present only in the prior collection. -/
def removedP (oldH newH : Hashes) (p : String) : Bool :=
  match jsGet oldH p, jsGet newH p with
  | some _, none => true
  | _, _ => false

/-- Present only in the current collection. -/
def addedP (oldH newH : Hashes) (p : String) : Bool :=
  match jsGet oldH p, jsGet newH p with
  | none, some _ => true
  | _, _ => false

/-- The union of the two key sets that `getHashCollectionDelta` iterates over. -/
def deltaUnion (oldC newC : HashCollection) : List String :=
  dedupFirst (objKeys oldC.hashes ++ objKeys newC.hashes)

/-! ## File-change detection (`getFileChangesAsync` of `src/lib/execRuntime.ts`)

The filesystem-facing operations (glob expansion, `fs.stat`, content
digesting, loading the persisted hash file) are collected in an `FsOps`
environment; the pure control flow of `getFileChangesAsync` is embedded over
it, together with the list of filesystem effects (glob expansions and file
hashings) the call performs. -/

structure FsOps where
  unrollGlobs : List String → List String
  statSize : String → Nat
  digestFile : String → String
  loadCollection : String → Except String HashCollection

/-- `generateHashEntryAsync`: byte size plus, unless `onlySize`, a content
digest. -/
def generateHashEntry (fs : FsOps) (filePath : String) (onlySize : Bool) : HashEntry :=
  if onlySize then { hash := none, size := fs.statSize filePath }
  else { hash := some (fs.digestFile filePath), size := fs.statSize filePath }

/-- `generateHashCollectionAsync`: `hashes[file] = ...` over the file list. -/
def generateHashCollection (fs : FsOps) (files : List String) (hashType : HashType)
    (onlySize : Bool) : HashCollection :=
  { hashType := hashType,
    hashes := files.foldl (fun acc f => jsSet acc f (generateHashEntry fs f onlySize)) [] }

def cacheFolderName : String := ".makfy-cache"

def hashTypeName : HashType → String
  | .sha1 => "sha1"

/-- `getHashCollectionFilename`: the cache file is named by a hex digest of
`scriptContents + contextName + hashType`.  The digest function itself
(crypto SHA-1 in the source) is a parameter; only its determinism matters
here. -/
def getHashCollectionFilename (digest : String → String)
    (scriptContents contextName : String) (hashType : HashType) : String :=
  cacheFolderName ++ "/" ++ digest (scriptContents ++ contextName ++ hashTypeName hashType)
    ++ ".hash"

/-- JS `a || b` where `a` may be `undefined`: falls through on `undefined`
and on the empty string (both falsy). -/
def jsOrElse (a : Option String) (b : String) : String :=
  match a with
  | some s => if s = "" then b else s
  | none => b

/-- The argument of `getHashCollectionFilename` inside `getFileChangesAsync`:
`baseContext.makfyFileContents || baseContext.makfyFilename`, the context
name, and the fixed `"sha1"` algorithm.  The glob patterns do not occur. -/
def cacheKey (digest : String → String) (makfyFileContents : Option String)
    (makfyFilename contextName : String) : String :=
  getHashCollectionFilename digest (jsOrElse makfyFileContents makfyFilename) contextName .sha1

/-- `globPatterns.map(e => e.trim()).filter(e => e.length > 0)`. -/
def trimmedPatterns (globPatterns : List String) : List String :=
  (globPatterns.map (fun e => e.trim)).filter (fun e => e.length > 0)

/-- The current file list: glob patterns are expanded only when at least one
non-blank pattern remains. -/
def effectiveGlobFiles (fs : FsOps) (globPatterns : List String) : List String :=
  if (trimmedPatterns globPatterns).length > 0 then fs.unrollGlobs (trimmedPatterns globPatterns)
  else []

/-- `CachedGetFileChangesResult` of `src/lib/execRuntime.ts`. -/
structure CachedGetFileChangesResult where
  result : GetFileChangesResult
  oldHashCollection : Option HashCollection
  newHashCollection : HashCollection
deriving DecidableEq, Repr

/-- The filesystem work a `getFileChangesAsync` call performs. -/
inductive FileEffect where
  | expandGlobs (patterns : List String)
  | hashFile (file : String)
deriving DecidableEq, Repr

def globHashEffects (fs : FsOps) (globPatterns : List String) : List FileEffect :=
  (if (trimmedPatterns globPatterns).length > 0
    then [FileEffect.expandGlobs (trimmedPatterns globPatterns)] else [])
    ++ (effectiveGlobFiles fs globPatterns).map FileEffect.hashFile

/-- The control flow of `getFileChangesAsync` (lines 144–234 of
`src/lib/execRuntime.ts`): consult the per-run memo keyed by the cache
filename; on a miss, expand globs, *try* to load the prior collection
(`try { ... } catch { /* do nothing */ }` — a load failure degrades to no
prior collection), hash the current files, take the delta, and store the
result in the memo.  Returns the delta, the updated memo and the filesystem
effects performed. -/
def getFileChangesModel (fs : FsOps) (digest : String → String)
    (makfyFileContents : Option String) (makfyFilename : String)
    (cache : JsObj String CachedGetFileChangesResult)
    (contextName : String) (globPatterns : List String) :
    Except String
      (GetFileChangesResult × JsObj String CachedGetFileChangesResult × List FileEffect) :=
  match jsGet cache (cacheKey digest makfyFileContents makfyFilename contextName) with
  | some cached => .ok (cached.result, cache, [])
  | none =>
    match getHashCollectionDelta
        ((fs.loadCollection (cacheKey digest makfyFileContents makfyFilename contextName)).toOption)
        (generateHashCollection fs (effectiveGlobFiles fs globPatterns) .sha1 false) with
    | .error e => .error e
    | .ok delta =>
      .ok (delta,
        jsSet cache (cacheKey digest makfyFileContents makfyFilename contextName)
          ⟨delta,
           (fs.loadCollection (cacheKey digest makfyFileContents makfyFilename contextName)).toOption,
           generateHashCollection fs (effectiveGlobFiles fs globPatterns) .sha1 false⟩,
        globHashEffects fs globPatterns)

/-! ## Bounded concurrency limiter (`src/lib/utils/promise.ts`)

`limitPromiseConcurrency(concurrency)` throws for `concurrency < 1` and
otherwise returns a gate maintaining `activeCount` and a FIFO `queue` of
pending `run` thunks.  The gate's runtime behaviour is modelled as a labelled
transition system over `LimiterState`: `submit` is a call of the gate (the
thunk runs immediately when `activeCount < concurrency`, else is pushed on
the queue), and the two `complete` transitions are the `.then` continuation
of a wrapped promise settling — `resolve`/`reject` with the wrapped call's
own value, then `next()`: decrement `activeCount` and, if the queue is
non-empty, `shift()` it and start the dequeued thunk.  JavaScript runs each
continuation synchronously, so each transition is atomic. -/

structure LimiterState (ρ : Type) where
  queue : List Nat
  activeCount : Nat
  submitted : List Nat
  started : List Nat
  settledIds : List Nat
  settled : List (Nat × ρ)
deriving DecidableEq, Repr

def initLimiter (ρ : Type) : LimiterState ρ :=
  { queue := [], activeCount := 0, submitted := [], started := [], settledIds := [],
    settled := [] }

/-- The `if (concurrency < 1) throw` guard of `limitPromiseConcurrency`; a
successful construction carries the positive capacity. -/
def limitPromiseConcurrency (concurrency : Int) : Except String { n : Nat // 1 ≤ n } :=
  if h : concurrency < 1 then .error "'concurrency' must be >= 1"
  else .ok ⟨concurrency.toNat, by omega⟩

inductive LimiterStep {ρ : Type} (n : Nat) (outcome : Nat → ρ) :
    LimiterState ρ → LimiterState ρ → Prop where
  | submitRun (s : LimiterState ρ) (t : Nat) :
      t ∉ s.submitted → s.activeCount < n →
      LimiterStep n outcome s
        { s with
            activeCount := s.activeCount + 1, submitted := s.submitted ++ [t],
            started := s.started ++ [t] }
  | submitQueue (s : LimiterState ρ) (t : Nat) :
      t ∉ s.submitted → ¬s.activeCount < n →
      LimiterStep n outcome s
        { s with submitted := s.submitted ++ [t], queue := s.queue ++ [t] }
  | completeEmpty (s : LimiterState ρ) (t : Nat) :
      t ∈ s.started → t ∉ s.settledIds → s.queue = [] →
      LimiterStep n outcome s
        { s with
            activeCount := s.activeCount - 1, settledIds := s.settledIds ++ [t],
            settled := s.settled ++ [(t, outcome t)] }
  | completeDequeue (s : LimiterState ρ) (t u : Nat) (rest : List Nat) :
      t ∈ s.started → t ∉ s.settledIds → s.queue = u :: rest →
      LimiterStep n outcome s
        { s with
            activeCount := s.activeCount - 1 + 1, queue := rest,
            started := s.started ++ [u], settledIds := s.settledIds ++ [t],
            settled := s.settled ++ [(t, outcome t)] }

inductive LimiterReach {ρ : Type} (n : Nat) (outcome : Nat → ρ) : LimiterState ρ → Prop where
  | init : 1 ≤ n → LimiterReach n outcome (initLimiter ρ)
  | step {s s' : LimiterState ρ} : LimiterReach n outcome s → LimiterStep n outcome s s' →
      LimiterReach n outcome s'

/-- The inductive invariant of the limiter. -/
def LimiterInv {ρ : Type} (n : Nat) (outcome : Nat → ρ) (s : LimiterState ρ) : Prop :=
  s.activeCount ≤ n ∧
  (s.queue ≠ [] → n ≤ s.activeCount) ∧
  s.submitted = s.started ++ s.queue ∧
  s.submitted.Nodup ∧
  (∀ t ∈ s.settledIds, t ∈ s.started) ∧
  s.settledIds.Nodup ∧
  s.started.length = s.activeCount + s.settledIds.length ∧
  (∀ pr ∈ s.settled, pr.2 = outcome pr.1)

/-! ## Character-list string utilities

Strings the source manipulates character by character are modelled as
`List Char`. -/

/-- The whitespace JavaScript's `String.prototype.trim` strips (the members
relevant to shell output). -/
def isJsSpace (c : Char) : Bool := c = ' ' || c = '\t' || c = '\n' || c = '\r'

/-- JS `s.trim()`. -/
def jsTrim (s : List Char) : List Char :=
  ((s.dropWhile isJsSpace).reverse.dropWhile isJsSpace).reverse

/-- JS `s.split(sep)` for a single-character separator: always returns at
least one (possibly empty) segment, and one extra segment per separator
occurrence. -/
def splitOnChar (sep : Char) : List Char → List (List Char)
  | [] => [[]]
  | c :: rest =>
    if c = sep then [] :: splitOnChar sep rest
    else
      match splitOnChar sep rest with
      | [] => [[c]]
      | l :: ls => (c :: l) :: ls

/-! ## Subprocess spawn planning (`execCommandStringAsync`,
`src/lib/execRuntime.ts` lines 488–496 and 572–593)

The leading `%`/`%%` verbosity markers set `silentLevel`; the command's own
invocation line is echoed when `silentLevel <= 1`; the child is spawned with
`stdio: ["pipe", silentLevel === 0 ? "pipe" : "ignore", "pipe"]`, so stdout
is captured into the multiplexer only at level 0 while stderr is always
piped into it. -/

def parseSilentLevel (command : List Char) : Nat × List Char :=
  if ['%', '%'].isPrefixOf command then (2, command.drop 2)
  else if ['%'].isPrefixOf command then (1, command.drop 1)
  else (0, command)

structure SpawnPlan where
  echoInvocation : Bool
  captureStdout : Bool
  routeStderr : Bool
deriving DecidableEq, Repr

def planCommandString (command : List Char) : SpawnPlan :=
  { echoInvocation := decide ((parseSilentLevel command).1 ≤ 1),
    captureStdout := decide ((parseSilentLevel command).1 = 0),
    routeStderr := true }

/-! ## Spawn environment composition (`execCommandStringAsync` lines 473–484)

`const env = { ...process.env, ...context.env, [pathEnvName]: currentPath }`
— the context overlay is spread over the ambient process environment, and
then the `PATH` variable is overwritten with the node-bin-prefixed *ambient*
path. -/

inductive ShellType where
  | sh : ShellType
  | cmd : ShellType
deriving DecidableEq, Repr

/-- `getPathEnvName`: `PATH` on `sh`, `Path` on `cmd`. -/
def getPathEnvName : ShellType → List Char
  | .sh => ['P', 'A', 'T', 'H']
  | .cmd => ['P', 'a', 't', 'h']

abbrev EnvObj := JsObj (List Char) (List Char)

def spawnEnv (shType : ShellType) (processEnv ctxEnv : EnvObj) (nodeBinPath : List Char) :
    EnvObj :=
  let pathEnvName := getPathEnvName shType
  let currentPath0 := (jsGet processEnv pathEnvName).getD []
  let currentPath :=
    if nodeBinPath.isPrefixOf currentPath0 then currentPath0
    else nodeBinPath ++ currentPath0
  jsSet (jsSpread processEnv ctxEnv) pathEnvName currentPath

/-! ## Execution-context forking and in-place commits
(`createExecFunctionContext` lines 308–327 and the exit-0 handler of
`execCommandStringAsync` lines 633–659 of `src/lib/execRuntime.ts`)

Contexts are mutable JS objects; object identity matters, so they are
modelled as records in a heap indexed by `CtxId`.  `forkHeap` is
`{ ...baseContext, syncMode, idStack }`: a fresh object shallow-copying the
parent's fields — in particular `cwd` and `env` — as of fork time.
`commitContext` is the exit-code-0 handler: it assigns `context.cwd` and
`context.env` on the committing context object only (`cwd` from the cwd temp
file with newlines stripped and trimmed, `env` parsed from the `NAME=VALUE`
lines of the env dump). -/

/-- A colored identifier-stack entry (`chalk.bold.keyword(color)(id)`),
modelled structurally as text plus color name. -/
structure ColoredText where
  text : String
  color : String
deriving DecidableEq, Repr

abbrev CtxId := Nat

structure CtxRecord where
  cwd : Option (List Char)
  env : EnvObj
  syncMode : Bool
  idStack : List ColoredText
deriving DecidableEq, Repr

abbrev CtxHeap := CtxId → CtxRecord

/-- `{ ...baseContext, syncMode, idStack }` allocated as the fresh object
`child`. -/
def forkHeap (h : CtxHeap) (parent child : CtxId) (syncMode : Bool)
    (idStack : List ColoredText) : CtxHeap :=
  fun i => if i = child then { h parent with syncMode := syncMode, idStack := idStack }
    else h i

/-- `readFileSync(cwdTmpFilename).replace(/\r?\n|\r/g, "").trim()`. -/
def parseCwdFile (content : List Char) : List Char :=
  jsTrim (content.filter (fun c => decide (c ≠ '\n' ∧ c ≠ '\r')))

/-- Lines 648–658: `replace(/\r/g, "").trim().split("\n")`, then for each
non-blank line, `name = pieces[0]` (up to the first `=`) and
`newEnv[name] = envLine.substr(name.length + 1)`. -/
def parseEnvLines (content : List Char) : EnvObj :=
  (splitOnChar '\n' (jsTrim (content.filter (fun c => c ≠ '\r')))).foldl
    (fun acc envLine =>
      if 0 < (jsTrim envLine).length then
        let name := envLine.takeWhile (fun c => c ≠ '=')
        jsSet acc name (envLine.drop (name.length + 1))
      else acc) []

/-- The exit-code-0 commit: `context.cwd = ...; context.env = newEnv` — an
in-place mutation of the single context object `id`. -/
def commitContext (h : CtxHeap) (id : CtxId) (cwdFile envFile : List Char) : CtxHeap :=
  fun i => if i = id then
      { h i with cwd := some (parseCwdFile cwdFile), env := parseEnvLines envFile }
    else h i

def applyCommits (h : CtxHeap) (ops : List (CtxId × List Char × List Char)) : CtxHeap :=
  ops.foldl (fun acc op => commitContext acc op.1 op.2.1 op.2.2) h

/-! ## Sequential execution and failure propagation (`createExecFunction`,
`src/lib/execRuntime.ts` lines 329–363)

`innerExec` iterates its command list with `await` on each node, so a node's
execution is fully sequenced before the next node is dispatched, and a
rejected node promise propagates out of the `async` function, rejecting the
whole `exec` call without dispatching the remaining nodes.  A node is
modelled by its command text; `sem` gives each node's rejection outcome
(`none` = fulfilled); executing a node contributes a `start` event (its
dispatch) followed by a `settle` event (its promise settling). -/

inductive SeqEvent where
  | start (cmd : List Char)
  | settle (cmd : List Char)
deriving DecidableEq, Repr

/-- One node's awaited execution: start, then settle, with the node's own
outcome. -/
def runNode (sem : List Char → Option String) (cmd : List Char) :
    List SeqEvent × Option String :=
  ([.start cmd, .settle cmd], sem cmd)

/-- The `for (let command of commands) { await ... }` loop of `innerExec`:
the trace of events it produces and the rejection it propagates, if any. -/
def innerExecSeq (sem : List Char → Option String) :
    List (List Char) → List SeqEvent × Option String
  | [] => ([], none)
  | c :: rest =>
    match (runNode sem c).2 with
    | some err => ((runNode sem c).1, some err)
    | none =>
      ((runNode sem c).1 ++ (innerExecSeq sem rest).1, (innerExecSeq sem rest).2)

/-! ## Output multiplexer flush (`OutputBuffer.flush`,
`src/lib/utils/OutputBuffer.ts`)

`flush` walks the queued chunks with two pieces of state: `lastType` (the
stream kind of the previous chunk — reset to "ended in newline" on every kind
change, before the socket lookup) and `lastEndedInNewLine`.  Each chunk's
data is stripped of `\r`, split on `\n`, and each resulting line is prefixed
with the context's line prefix except (1) the first segment when the previous
chunk of the same kind left an unterminated line, and (2) a trailing empty
segment.  The chalk color wrapping and `stripColor` are modelled as the
identity (they only add and remove color escapes around the same text). -/

structure OutChunk where
  type : String
  data : List Char
deriving DecidableEq, Repr

structure FlushState where
  lastEndedInNewLine : Bool
  lastType : Option String
deriving DecidableEq, Repr

/-- JS `[...].join(sep)` for single-character separators. -/
def intercalateChar (sep : Char) : List (List Char) → List Char
  | [] => []
  | [l] => l
  | l :: r :: rs => l ++ sep :: intercalateChar sep (r :: rs)

/-- The prefixing loop over the split lines: `linePrefix` is prepended to
every line except the first when continuing an unterminated line
(`i === 0 && !lastEndedInNewLine`) and except a trailing empty segment
(`i === lines.length - 1 && stripColor(line).length <= 0`). -/
def prefixLinesAux (pre : List Char) (le : Bool) : Bool → List (List Char) → List (List Char)
  | _, [] => []
  | isF, [l] => if l = [] ∨ (isF = true ∧ le = false) then [l] else [pre ++ l]
  | isF, l :: r :: rs =>
    (if isF = true ∧ le = false then l else pre ++ l) :: prefixLinesAux pre le false (r :: rs)

/-- Processing of one buffered chunk inside `flush`: the updated state and
(for chunks whose stream kind has a socket) the text written. -/
def processChunk (pre : List Char) (hasSocket : String → Bool) (st : FlushState)
    (b : OutChunk) : FlushState × Option (List Char) :=
  let st1 := if st.lastType ≠ some b.type
    then { lastType := some b.type, lastEndedInNewLine := true } else st
  if hasSocket b.type then
    let lines := splitOnChar '\n' (b.data.filter (fun c => c ≠ '\r'))
    let text := intercalateChar '\n' (prefixLinesAux pre st1.lastEndedInNewLine true lines)
    ({ st1 with lastEndedInNewLine := decide (text ≠ [] ∧ text.getLast? = some '\n') },
     some text)
  else (st1, none)

/-- The state after processing a prefix of the buffered chunks in one flush
(the flush starts with `lastEndedInNewLine = true` and no last type). -/
def flushStateAt (pre : List Char) (hasSocket : String → Bool) (bs : List OutChunk) :
    FlushState :=
  bs.foldl (fun st b => (processChunk pre hasSocket st b).1) ⟨true, none⟩

/-- The continuation flag a chunk is prefixed under: reset to `true` on a
stream-kind change, otherwise the carried `lastEndedInNewLine`. -/
def chunkLE (st : FlushState) (b : OutChunk) : Bool :=
  if st.lastType ≠ some b.type then true else st.lastEndedInNewLine

/-! ## Execution-tree scheduler (`createExecFunction`, `execArrayAsync` and
`createExecFunctionContext` of `src/lib/execRuntime.ts`)

The scheduler walks the nested command specification.  `planCmd` denotes a
node's execution as a process term `Proc`:

* a string leaf is trimmed and dispatched on its first character (`@`
  sub-command, `?` help text, otherwise shell command — `execObjectAsync`
  leaves become sub-command actions likewise);
* a list under a context in sequential mode (`syncMode = true`,
  `execArrayAsync`'s first branch) forks one fresh child context per element
  via `createExecFunctionContext(baseContext, [...baseContext.idStack],
  false)` — the closure's `lastId` counter hands element `i` the numeric id
  `i` and the color `contextIdColors[i % 5]`, both because the limiter starts
  the mapped thunks in submission order — and joins all branches
  (`Promise.all` over `limit(() => execFunc(cmd))`);
* a list under a context in parallel mode (`syncMode = false`) runs its
  elements through `await execFunction(...commands)` on the *same* context:
  the sequential path, with `syncMode` left `false`.

The `Promise.all` fan-out/join over a list of branches is modelled as
right-nested binary parallel composition (`parAll`), which has the same
interleaving trace semantics.  `ProcTrace` gives the possible event traces:
an atomic leaf contributes its start and finish, sequencing concatenates,
and parallel composition interleaves — the join's trace ends only once every
branch's trace (hence every leaf's finish) is contained. -/

def contextIdColors : List String := ["magenta", "green", "yellow", "red", "blue"]

def colorFor (i : Nat) : String :=
  contextIdColors.get ⟨i % contextIdColors.length, Nat.mod_lt _ (by decide)⟩

structure SchedCtx where
  idStack : List ColoredText
  syncMode : Bool
deriving DecidableEq, Repr

/-- The forked context of `createExecFunctionContext`:
`{ ...baseContext, syncMode, idStack: [...baseIdStack,
chalk.bold.keyword(color)(id)] }` with `id = String(lastId)` and
`color = contextIdColors[lastId % contextIdColors.length]`. -/
def forkContext (_base : SchedCtx) (baseIdStack : List ColoredText) (syncMode : Bool)
    (lastId : Nat) : SchedCtx :=
  { idStack := baseIdStack ++ [⟨toString lastId, colorFor lastId⟩],
    syncMode := syncMode }

inductive ExecCommand where
  | null : ExecCommand
  | str : List Char → ExecCommand
  | obj : List Char → ExecCommand
  | arr : List ExecCommand → ExecCommand
deriving Repr

inductive LeafKind where
  | shell : LeafKind
  | help : LeafKind
  | sub : LeafKind
deriving DecidableEq, Repr

inductive Proc where
  | skip : Proc
  | leaf : LeafKind → SchedCtx → List Char → Proc
  | seqP : Proc → Proc → Proc
  | parP : Proc → Proc → Proc
deriving DecidableEq, Repr

/-- `Promise.all` over a list of branches as nested binary fan-out/join. -/
def parAll : List Proc → Proc
  | [] => .skip
  | p :: ps => .parP p (parAll ps)

mutual

def planCmd : SchedCtx → ExecCommand → Proc
  | _, .null => .skip
  | ctx, .obj name => .leaf .sub ctx name
  | ctx, .str s =>
    match jsTrim s with
    | [] => .skip
    | '@' :: t => .leaf .sub ctx ('@' :: t)
    | '?' :: t => .leaf .help ctx ('?' :: t)
    | c :: t => .leaf .shell ctx (c :: t)
  | ctx, .arr cmds =>
    if ctx.syncMode then parAll (planFork ctx 0 cmds) else planCmds ctx cmds

/-- One forked branch per element: element `i` runs `innerExec` on the
singleton `[cmd]` in the context forked with id `i` (`.seqP … .skip` is
`planCmds` on a singleton, unfolded for termination). -/
def planFork : SchedCtx → Nat → List ExecCommand → List Proc
  | _, _, [] => []
  | ctx, i, c :: rest =>
    .seqP (planCmd (forkContext ctx ctx.idStack false i) c) .skip ::
      planFork ctx (i + 1) rest

def planCmds : SchedCtx → List ExecCommand → Proc
  | _, [] => .skip
  | ctx, c :: rest => .seqP (planCmd ctx c) (planCmds ctx rest)

end

structure LeafId where
  kind : LeafKind
  ctx : SchedCtx
  cmd : List Char
deriving DecidableEq, Repr

inductive PEvent where
  | start : LeafId → PEvent
  | finish : LeafId → PEvent
deriving DecidableEq, Repr

def leavesOf : Proc → List LeafId
  | .skip => []
  | .leaf k c s => [⟨k, c, s⟩]
  | .seqP p q => leavesOf p ++ leavesOf q
  | .parP p q => leavesOf p ++ leavesOf q

inductive Interleave {α : Type} : List α → List α → List α → Prop where
  | nil : Interleave [] [] []
  | left {e : α} {t1 t2 t : List α} : Interleave t1 t2 t → Interleave (e :: t1) t2 (e :: t)
  | right {e : α} {t1 t2 t : List α} : Interleave t1 t2 t → Interleave t1 (e :: t2) (e :: t)

inductive ProcTrace : Proc → List PEvent → Prop where
  | skip : ProcTrace .skip []
  | leaf (k : LeafKind) (ctx : SchedCtx) (s : List Char) :
      ProcTrace (.leaf k ctx s) [.start ⟨k, ctx, s⟩, .finish ⟨k, ctx, s⟩]
  | seqP {p q : Proc} {t1 t2 : List PEvent} :
      ProcTrace p t1 → ProcTrace q t2 → ProcTrace (.seqP p q) (t1 ++ t2)
  | parP {p q : Proc} {t1 t2 t : List PEvent} :
      ProcTrace p t1 → ProcTrace q t2 → Interleave t1 t2 t → ProcTrace (.parP p q) t

/-! ### The `[[a, [b, c]]]` nesting-parity example: `exec` called with the
single list `[a, [b, c]]` under a sequential parent context. -/

def exCtx0 : SchedCtx := ⟨[], true⟩

def exCtxA : SchedCtx := forkContext exCtx0 [] false 0

def exCtxBC : SchedCtx := forkContext exCtx0 [] false 1

def exLeafA : LeafId := ⟨.shell, exCtxA, ['a']⟩

def exLeafB : LeafId := ⟨.shell, exCtxBC, ['b']⟩

def exLeafC : LeafId := ⟨.shell, exCtxBC, ['c']⟩

def exSpec : ExecCommand := .arr [.str ['a'], .arr [.str ['b'], .str ['c']]]

/-- The events of the `[b, c]` branch of the example. -/
def isBCEvent : PEvent → Bool
  | .start l => decide (l.cmd = ['b'] ∨ l.cmd = ['c'])
  | .finish l => decide (l.cmd = ['b'] ∨ l.cmd = ['c'])

/-! ### Counterexample to "the inversion alternates at every nesting depth":
`exec` called with the single list `[[[b, c]]]` under a sequential parent.
After the first inversion the forked context stays in parallel mode forever,
so the depth-3 list `[b, c]` runs `b` then `c` strictly sequentially instead
of inverting back to a parallel fan-out. -/

def cexSpec : ExecCommand := .arr [.arr [.arr [.str ['b'], .str ['c']]]]

def cexCtx : SchedCtx := forkContext ⟨[], true⟩ [] false 0

def cexLeafB : LeafId := ⟨.shell, cexCtx, ['b']⟩

def cexLeafC : LeafId := ⟨.shell, cexCtx, ['c']⟩

/-! ## Theorems -/

theorem jsGet_isSome_iff_mem_keys {κ ν : Type} [DecidableEq κ]
    (o : JsObj κ ν) (k : κ) : (jsGet o k).isSome ↔ k ∈ objKeys o := by
  induction o with
  | nil => simp [jsGet, objKeys]
  | cons p rest ih =>
    obtain ⟨k', v⟩ := p
    simp only [jsGet, objKeys, List.map_cons, List.mem_cons]
    by_cases h : k' = k
    · subst h; simp
    · rw [if_neg h]
      simp only [objKeys] at ih
      rw [ih]
      constructor
      · exact fun hm => Or.inr hm
      · rintro (rfl | hm)
        · exact absurd rfl h
        · exact hm

theorem jsGet_eq_none_iff_not_mem_keys {κ ν : Type} [DecidableEq κ]
    (o : JsObj κ ν) (k : κ) : jsGet o k = none ↔ k ∉ objKeys o := by
  rw [← jsGet_isSome_iff_mem_keys]
  cases jsGet o k <;> simp

theorem jsGet_jsSet_same {κ ν : Type} [DecidableEq κ]
    (o : JsObj κ ν) (k : κ) (v : ν) : jsGet (jsSet o k v) k = some v := by
  induction o with
  | nil => simp [jsSet, jsGet]
  | cons p rest ih =>
    obtain ⟨k', v'⟩ := p
    by_cases h : k' = k <;> simp [jsSet, jsGet, h, ih]

theorem jsGet_jsSet_other {κ ν : Type} [DecidableEq κ]
    (o : JsObj κ ν) (k k' : κ) (v : ν) (hne : k' ≠ k) :
    jsGet (jsSet o k v) k' = jsGet o k' := by
  have hne' : ¬k = k' := fun h => hne (Eq.symm h)
  induction o with
  | nil => simp [jsSet, jsGet, hne']
  | cons p rest ih =>
    obtain ⟨k₀, v₀⟩ := p
    by_cases h : k₀ = k
    · subst h
      simp [jsSet, jsGet, hne']
    · simp [jsSet, jsGet, h, ih]

theorem objKeys_jsSet {κ ν : Type} [DecidableEq κ]
    (o : JsObj κ ν) (k : κ) (v : ν) :
    objKeys (jsSet o k v) = if k ∈ objKeys o then objKeys o else objKeys o ++ [k] := by
  induction o with
  | nil => simp [jsSet, objKeys]
  | cons p rest ih =>
    obtain ⟨k₀, v₀⟩ := p
    by_cases h : k₀ = k
    · subst h; simp [jsSet, objKeys]
    · simp only [jsSet, if_neg h, objKeys, List.map_cons]
      simp only [objKeys] at ih
      rw [ih]
      by_cases hk : k ∈ List.map Prod.fst rest
      · rw [if_pos hk, if_pos (List.mem_cons_of_mem _ hk)]
      · rw [if_neg hk, if_neg ?_]
        · simp
        · intro hmem
          rcases List.mem_cons.mp hmem with h1 | h1
          · exact h h1.symm
          · exact hk h1

theorem mem_dedupFirst {α : Type} [DecidableEq α] (l : List α) (a : α) :
    a ∈ dedupFirst l ↔ a ∈ l := by
  induction l using dedupFirst.induct with
  | case1 => simp [dedupFirst]
  | case2 b l ih =>
    rw [dedupFirst]
    constructor
    · intro hmem
      rcases List.mem_cons.mp hmem with rfl | hmem
      · exact List.mem_cons_self _ _
      · exact List.mem_cons_of_mem _ (List.mem_filter.mp (ih.mp hmem)).1
    · intro hmem
      rcases List.mem_cons.mp hmem with rfl | hmem
      · exact List.mem_cons_self _ _
      · by_cases h : a = b
        · subst h; exact List.mem_cons_self _ _
        · refine List.mem_cons_of_mem _ (ih.mpr ?_)
          exact List.mem_filter.mpr ⟨hmem, by simp [h]⟩

theorem nodup_dedupFirst {α : Type} [DecidableEq α] (l : List α) :
    (dedupFirst l).Nodup := by
  induction l using dedupFirst.induct with
  | case1 => simp [dedupFirst]
  | case2 b l ih =>
    rw [dedupFirst]
    refine List.nodup_cons.mpr ⟨?_, ih⟩
    rw [mem_dedupFirst]
    intro hmem
    have := (List.mem_filter.mp hmem).2
    simp at this

theorem hashType_unique (a b : HashType) : a = b := by cases a; cases b; rfl

theorem classifyAll_eq (oldH newH : Hashes) (ps : List String) :
    ∀ acc : GetFileChangesResult,
    (∀ p ∈ ps, (jsGet oldH p).isSome ∨ (jsGet newH p).isSome) →
    classifyAll oldH newH acc ps = .ok
      { hasChanges := acc.hasChanges || ps.any (fun p => !unmodifiedP oldH newH p),
        cleanRun := acc.cleanRun,
        removed := acc.removed ++ ps.filter (removedP oldH newH),
        modified := acc.modified ++ ps.filter (modifiedP oldH newH),
        unmodified := acc.unmodified ++ ps.filter (unmodifiedP oldH newH),
        added := acc.added ++ ps.filter (addedP oldH newH) } := by
  induction ps with
  | nil => intro acc _; simp [classifyAll]
  | cons p rest ih =>
    intro acc hpres
    have hrest : ∀ q ∈ rest, (jsGet oldH q).isSome ∨ (jsGet newH q).isSome :=
      fun q hq => hpres q (List.mem_cons_of_mem _ hq)
    have hp := hpres p (List.mem_cons_self _ _)
    rw [classifyAll]
    cases h1 : jsGet oldH p with
    | none =>
      cases h2 : jsGet newH p with
      | none => rw [h1, h2] at hp; simp at hp
      | some ne =>
        simp only [classifyStep, h1, h2]
        rw [ih _ hrest]
        simp [unmodifiedP, modifiedP, removedP, addedP, h1, h2, List.filter_cons,
          List.any_cons]
    | some oe =>
      cases h2 : jsGet newH p with
      | none =>
        simp only [classifyStep, h1, h2]
        rw [ih _ hrest]
        simp [unmodifiedP, modifiedP, removedP, addedP, h1, h2, List.filter_cons,
          List.any_cons]
      | some ne =>
        by_cases heq : oe.size = ne.size ∧ oe.hash = ne.hash
        · simp only [classifyStep, h1, h2, if_pos heq]
          rw [ih _ hrest]
          simp [unmodifiedP, modifiedP, removedP, addedP, h1, h2, heq, List.filter_cons,
            List.any_cons]
        · simp only [classifyStep, h1, h2, if_neg heq]
          rw [ih _ hrest]
          simp only [unmodifiedP, modifiedP, removedP, addedP, h1, h2, heq,
            List.filter_cons, List.any_cons, Except.ok.injEq]
          simp [heq, not_and_or.mp heq]

theorem count_filter_eq {α : Type} [DecidableEq α] (q : α → Bool) (a : α) (l : List α) :
    (l.filter q).count a = if q a = true then l.count a else 0 := by
  induction l with
  | nil => simp
  | cons b l ih =>
    by_cases hb : q b = true
    · rw [List.filter_cons_of_pos hb, List.count_cons, List.count_cons, ih]
      by_cases hab : a = b
      · subst hab; simp [hb]
      · have hba : ¬b = a := fun h => hab h.symm
        by_cases hq : q a = true <;> simp [hq, hba]
    · rw [List.filter_cons_of_neg (by simpa using hb), List.count_cons, ih]
      by_cases hab : a = b
      · subst hab; simp [hb]
      · have hba : ¬b = a := fun h => hab h.symm
        by_cases hq : q a = true <;> simp [hq, hba]

theorem mem_deltaUnion_present (oldC newC : HashCollection) (p : String)
    (hp : p ∈ deltaUnion oldC newC) :
    (jsGet oldC.hashes p).isSome ∨ (jsGet newC.hashes p).isSome := by
  rw [deltaUnion, mem_dedupFirst, List.mem_append] at hp
  rcases hp with h | h
  · exact Or.inl ((jsGet_isSome_iff_mem_keys _ _).mpr h)
  · exact Or.inr ((jsGet_isSome_iff_mem_keys _ _).mpr h)

theorem present_mem_deltaUnion (oldC newC : HashCollection) (p : String)
    (hp : (jsGet oldC.hashes p).isSome ∨ (jsGet newC.hashes p).isSome) :
    p ∈ deltaUnion oldC newC := by
  rw [deltaUnion, mem_dedupFirst, List.mem_append]
  rcases hp with h | h
  · exact Or.inl ((jsGet_isSome_iff_mem_keys _ _).mp h)
  · exact Or.inr ((jsGet_isSome_iff_mem_keys _ _).mp h)

theorem mem_filter_deltaUnion_iff (oldC newC : HashCollection) (q : Hashes → Hashes → String → Bool)
    (hq : ∀ p, q oldC.hashes newC.hashes p = true →
      (jsGet oldC.hashes p).isSome ∨ (jsGet newC.hashes p).isSome) (p : String) :
    p ∈ (deltaUnion oldC newC).filter (q oldC.hashes newC.hashes) ↔
      q oldC.hashes newC.hashes p = true := by
  rw [List.mem_filter]
  constructor
  · exact fun h => h.2
  · intro h
    exact ⟨present_mem_deltaUnion _ _ _ (hq p h), h⟩

/-- **C4** — When a prior persisted hash collection exists,
`getHashCollectionDelta` classifies every path in the union of prior and
current file sets exactly once: `unmodified` iff present in both collections
with equal size and equal digest; `modified` iff present in both and differing
in size or digest; `removed` iff present only in the prior collection; `added`
iff present only in the current collection; and the returned `hasChanges` flag
is true iff at least one path is classified other than `unmodified`. -/
theorem getHashCollectionDelta_classification (oldC newC : HashCollection) :
    ∃ r : GetFileChangesResult,
      getHashCollectionDelta (some oldC) newC = .ok r ∧
      (∀ p, p ∈ r.unmodified ↔ ∃ oe ne, jsGet oldC.hashes p = some oe ∧
          jsGet newC.hashes p = some ne ∧ oe.size = ne.size ∧ oe.hash = ne.hash) ∧
      (∀ p, p ∈ r.modified ↔ ∃ oe ne, jsGet oldC.hashes p = some oe ∧
          jsGet newC.hashes p = some ne ∧ ¬(oe.size = ne.size ∧ oe.hash = ne.hash)) ∧
      (∀ p, p ∈ r.removed ↔ (jsGet oldC.hashes p).isSome ∧ jsGet newC.hashes p = none) ∧
      (∀ p, p ∈ r.added ↔ jsGet oldC.hashes p = none ∧ (jsGet newC.hashes p).isSome) ∧
      (∀ p, p ∈ deltaUnion oldC newC →
        r.unmodified.count p + r.modified.count p + r.removed.count p + r.added.count p = 1) ∧
      (∀ p, p ∉ deltaUnion oldC newC →
        r.unmodified.count p + r.modified.count p + r.removed.count p + r.added.count p = 0) ∧
      (r.hasChanges = true ↔ ¬(r.modified = [] ∧ r.removed = [] ∧ r.added = [])) := by
  have hpres : ∀ p ∈ deltaUnion oldC newC,
      (jsGet oldC.hashes p).isSome ∨ (jsGet newC.hashes p).isSome :=
    fun p hp => mem_deltaUnion_present oldC newC p hp
  have hdelta : getHashCollectionDelta (some oldC) newC = classifyAll oldC.hashes newC.hashes
      { hasChanges := false, cleanRun := false, removed := [], modified := [],
        unmodified := [], added := [] } (deltaUnion oldC newC) := by
    rw [getHashCollectionDelta, if_pos (hashType_unique _ _), deltaUnion]
  rw [hdelta, classifyAll_eq _ _ _ _ hpres]
  refine ⟨_, rfl, ?_, ?_, ?_, ?_, ?_, ?_, ?_⟩
  · -- unmodified membership
    intro p
    simp only [List.nil_append]
    rw [mem_filter_deltaUnion_iff oldC newC unmodifiedP ?presU]
    case presU =>
      intro p' h
      unfold unmodifiedP at h
      cases h1 : jsGet oldC.hashes p' <;> cases h2 : jsGet newC.hashes p' <;>
        rw [h1, h2] at h <;> simp_all
    unfold unmodifiedP
    cases h1 : jsGet oldC.hashes p <;> cases h2 : jsGet newC.hashes p <;> simp_all
  · -- modified membership
    intro p
    simp only [List.nil_append]
    rw [mem_filter_deltaUnion_iff oldC newC modifiedP ?presM]
    case presM =>
      intro p' h
      unfold modifiedP at h
      cases h1 : jsGet oldC.hashes p' <;> cases h2 : jsGet newC.hashes p' <;>
        rw [h1, h2] at h <;> simp_all
    unfold modifiedP
    cases h1 : jsGet oldC.hashes p <;> cases h2 : jsGet newC.hashes p <;> simp_all
    tauto
  · -- removed membership
    intro p
    simp only [List.nil_append]
    rw [mem_filter_deltaUnion_iff oldC newC removedP ?presR]
    case presR =>
      intro p' h
      unfold removedP at h
      cases h1 : jsGet oldC.hashes p' <;> cases h2 : jsGet newC.hashes p' <;>
        rw [h1, h2] at h <;> simp_all
    unfold removedP
    cases h1 : jsGet oldC.hashes p <;> cases h2 : jsGet newC.hashes p <;> simp_all
  · -- added membership
    intro p
    simp only [List.nil_append]
    rw [mem_filter_deltaUnion_iff oldC newC addedP ?presA]
    case presA =>
      intro p' h
      unfold addedP at h
      cases h1 : jsGet oldC.hashes p' <;> cases h2 : jsGet newC.hashes p' <;>
        rw [h1, h2] at h <;> simp_all
    unfold addedP
    cases h1 : jsGet oldC.hashes p <;> cases h2 : jsGet newC.hashes p <;> simp_all
  · -- each path in the union is classified exactly once
    intro p hp
    simp only [List.nil_append]
    rw [count_filter_eq, count_filter_eq, count_filter_eq, count_filter_eq]
    have hcount : (deltaUnion oldC newC).count p = 1 :=
      List.count_eq_one_of_mem (by rw [deltaUnion]; exact nodup_dedupFirst _) hp
    rcases hpres p hp with hP | hP
    · obtain ⟨oe, h1⟩ := Option.isSome_iff_exists.mp hP
      cases h2 : jsGet newC.hashes p with
      | none =>
        simp [unmodifiedP, modifiedP, removedP, addedP, h1, h2, hcount]
      | some ne =>
        by_cases heq : oe.size = ne.size ∧ oe.hash = ne.hash <;>
          simp [unmodifiedP, modifiedP, removedP, addedP, h1, h2, heq, hcount]
    · obtain ⟨ne, h2⟩ := Option.isSome_iff_exists.mp hP
      cases h1 : jsGet oldC.hashes p with
      | none =>
        simp [unmodifiedP, modifiedP, removedP, addedP, h1, h2, hcount]
      | some oe =>
        by_cases heq : oe.size = ne.size ∧ oe.hash = ne.hash <;>
          simp [unmodifiedP, modifiedP, removedP, addedP, h1, h2, heq, hcount]
  · -- a path outside the union is never classified
    intro p hp
    simp only [List.nil_append]
    rw [count_filter_eq, count_filter_eq, count_filter_eq, count_filter_eq]
    have hcount : (deltaUnion oldC newC).count p = 0 := by
      rw [List.count_eq_zero]; exact hp
    by_cases hU : unmodifiedP oldC.hashes newC.hashes p = true <;>
      by_cases hM : modifiedP oldC.hashes newC.hashes p = true <;>
        by_cases hR : removedP oldC.hashes newC.hashes p = true <;>
          by_cases hA : addedP oldC.hashes newC.hashes p = true <;>
            simp [hU, hM, hR, hA, hcount]
  · -- hasChanges iff some non-unmodified classification exists
    simp only [Bool.false_or, List.nil_append]
    constructor
    · intro hany hempty
      obtain ⟨p, hpmem, hpch⟩ := List.any_eq_true.mp hany
      rw [Bool.not_eq_eq_eq_not, Bool.not_true] at hpch
      rcases hpres p hpmem with hP | hP
      · obtain ⟨oe, h1⟩ := Option.isSome_iff_exists.mp hP
        cases h2 : jsGet newC.hashes p with
        | none =>
          have : p ∈ (deltaUnion oldC newC).filter (removedP oldC.hashes newC.hashes) :=
            List.mem_filter.mpr ⟨hpmem, by simp [removedP, h1, h2]⟩
          rw [hempty.2.1] at this
          simp at this
        | some ne =>
          by_cases heq : oe.size = ne.size ∧ oe.hash = ne.hash
          · rw [unmodifiedP, h1, h2] at hpch
            simp [heq] at hpch
          · have : p ∈ (deltaUnion oldC newC).filter (modifiedP oldC.hashes newC.hashes) :=
              List.mem_filter.mpr ⟨hpmem, by simp [modifiedP, h1, h2, heq]⟩
            rw [hempty.1] at this
            simp at this
      · obtain ⟨ne, h2⟩ := Option.isSome_iff_exists.mp hP
        cases h1 : jsGet oldC.hashes p with
        | none =>
          have : p ∈ (deltaUnion oldC newC).filter (addedP oldC.hashes newC.hashes) :=
            List.mem_filter.mpr ⟨hpmem, by simp [addedP, h1, h2]⟩
          rw [hempty.2.2] at this
          simp at this
        | some oe =>
          by_cases heq : oe.size = ne.size ∧ oe.hash = ne.hash
          · rw [unmodifiedP, h1, h2] at hpch
            simp [heq] at hpch
          · have : p ∈ (deltaUnion oldC newC).filter (modifiedP oldC.hashes newC.hashes) :=
              List.mem_filter.mpr ⟨hpmem, by simp [modifiedP, h1, h2, heq]⟩
            rw [hempty.1] at this
            simp at this
    · intro hne
      by_contra hany
      rw [Bool.not_eq_true] at hany
      have hnone : ∀ p ∈ deltaUnion oldC newC, unmodifiedP oldC.hashes newC.hashes p = true := by
        intro p hpmem
        have h := List.any_eq_false.mp hany p hpmem
        simpa using h
      apply hne
      refine ⟨?_, ?_, ?_⟩ <;> rw [List.filter_eq_nil_iff] <;> intro p hpmem
      · have hu := hnone p hpmem
        unfold unmodifiedP at hu
        unfold modifiedP
        cases h1 : jsGet oldC.hashes p <;> cases h2 : jsGet newC.hashes p <;> simp_all
      · have hu := hnone p hpmem
        unfold unmodifiedP at hu
        unfold removedP
        cases h1 : jsGet oldC.hashes p <;> cases h2 : jsGet newC.hashes p <;> simp_all
      · have hu := hnone p hpmem
        unfold unmodifiedP at hu
        unfold addedP
        cases h1 : jsGet oldC.hashes p <;> cases h2 : jsGet newC.hashes p <;> simp_all

theorem mem_objKeys_jsSet {κ ν : Type} [DecidableEq κ]
    (o : JsObj κ ν) (k f : κ) (v : ν) :
    f ∈ objKeys (jsSet o k v) ↔ f ∈ objKeys o ∨ f = k := by
  rw [objKeys_jsSet]
  by_cases hk : k ∈ objKeys o
  · rw [if_pos hk]
    constructor
    · exact fun h => Or.inl h
    · rintro (h | rfl)
      · exact h
      · exact hk
  · rw [if_neg hk]
    simp

theorem mem_objKeys_generateHashCollection (fs : FsOps) (files : List String)
    (ht : HashType) (onlySize : Bool) (f : String) :
    f ∈ objKeys (generateHashCollection fs files ht onlySize).hashes ↔ f ∈ files := by
  suffices h : ∀ (fl : List String) (init : Hashes),
      f ∈ objKeys (fl.foldl (fun acc x => jsSet acc x (generateHashEntry fs x onlySize)) init) ↔
        f ∈ objKeys init ∨ f ∈ fl by
    have := h files []
    simpa [generateHashCollection, objKeys] using this
  intro fl
  induction fl with
  | nil => intro init; simp
  | cons x rest ih =>
    intro init
    rw [List.foldl_cons, ih, mem_objKeys_jsSet]
    constructor
    · rintro ((h | rfl) | h)
      · exact Or.inl h
      · exact Or.inr (List.mem_cons_self _ _)
      · exact Or.inr (List.mem_cons_of_mem _ h)
    · rintro (h | h)
      · exact Or.inl (Or.inl h)
      · rcases List.mem_cons.mp h with rfl | h
        · exact Or.inl (Or.inr rfl)
        · exact Or.inr h

theorem getHashCollectionDelta_isOk (old : Option HashCollection) (newC : HashCollection) :
    ∃ r, getHashCollectionDelta old newC = .ok r := by
  cases old with
  | none => exact ⟨_, rfl⟩
  | some oldC =>
    rw [getHashCollectionDelta, if_pos (hashType_unique _ _)]
    exact ⟨_, classifyAll_eq _ _ _ _
      (fun p hp => mem_deltaUnion_present oldC newC p hp)⟩

/-- **C5** — If no prior hash collection can be loaded for the cache key (the
cache file is missing or fails to load/parse), `getFileChangesAsync` never
propagates the load error: it classifies the call as a clean run with
`cleanRun = true`, `hasChanges = true`, every current file in `added`, and
empty `modified`/`removed`/`unmodified` lists. -/
theorem getFileChanges_cleanRun_on_load_error (fs : FsOps) (digest : String → String)
    (makfyFileContents : Option String) (makfyFilename : String)
    (cache : JsObj String CachedGetFileChangesResult)
    (contextName : String) (globPatterns : List String) (err : String)
    (hmiss : jsGet cache (cacheKey digest makfyFileContents makfyFilename contextName) = none)
    (hload : fs.loadCollection (cacheKey digest makfyFileContents makfyFilename contextName)
      = .error err) :
    ∃ r cache' effects,
      getFileChangesModel fs digest makfyFileContents makfyFilename cache contextName
          globPatterns = .ok (r, cache', effects) ∧
      r.cleanRun = true ∧ r.hasChanges = true ∧
      r.modified = [] ∧ r.removed = [] ∧ r.unmodified = [] ∧
      (∀ f, f ∈ r.added ↔ f ∈ effectiveGlobFiles fs globPatterns) := by
  rw [getFileChangesModel, hmiss, hload]
  simp only [Except.toOption]
  rw [getHashCollectionDelta]
  refine ⟨_, _, _, rfl, rfl, rfl, rfl, rfl, rfl, ?_⟩
  intro f
  exact mem_objKeys_generateHashCollection fs (effectiveGlobFiles fs globPatterns) .sha1 false f

/-- Witness for `getFileChanges_cleanRun_on_load_error`: an empty memo and a
filesystem whose hash-file load always fails with `ENOENT`. -/
theorem getFileChanges_cleanRun_on_load_error_witness :
    ∃ r cache' effects,
      getFileChangesModel
        ⟨fun _ => ["f1"], fun _ => 3, fun _ => "d", fun _ => .error "ENOENT"⟩
        (fun s => s) (some "m") "makfyfile.js" [] "ctx" ["*"] = .ok (r, cache', effects) ∧
      r.cleanRun = true ∧ r.hasChanges = true ∧
      r.modified = [] ∧ r.removed = [] ∧ r.unmodified = [] ∧
      (∀ f, f ∈ r.added ↔ f ∈ effectiveGlobFiles
        ⟨fun _ => ["f1"], fun _ => 3, fun _ => "d", fun _ => .error "ENOENT"⟩ ["*"]) :=
  getFileChanges_cleanRun_on_load_error
    ⟨fun _ => ["f1"], fun _ => 3, fun _ => "d", fun _ => .error "ENOENT"⟩
    (fun s => s) (some "m") "makfyfile.js" [] "ctx" ["*"] "ENOENT" rfl rfl

/-- A `getFileChangesModel` call never fails and stores its result in the
memo under the cache key. -/
theorem getFileChangesModel_total (fs : FsOps) (digest : String → String)
    (makfyFileContents : Option String) (makfyFilename : String)
    (cache : JsObj String CachedGetFileChangesResult)
    (contextName : String) (globPatterns : List String) :
    ∃ r cache' effects,
      getFileChangesModel fs digest makfyFileContents makfyFilename cache contextName
          globPatterns = .ok (r, cache', effects) ∧
      ∃ c : CachedGetFileChangesResult,
        jsGet cache' (cacheKey digest makfyFileContents makfyFilename contextName) = some c ∧
        c.result = r := by
  cases hcache : jsGet cache (cacheKey digest makfyFileContents makfyFilename contextName) with
  | some cached =>
    refine ⟨cached.result, cache, [], ?_, cached, hcache, rfl⟩
    rw [getFileChangesModel, hcache]
  | none =>
    obtain ⟨delta, hdelta⟩ := getHashCollectionDelta_isOk
      ((fs.loadCollection (cacheKey digest makfyFileContents makfyFilename contextName)).toOption)
      (generateHashCollection fs (effectiveGlobFiles fs globPatterns) .sha1 false)
    refine ⟨delta,
      jsSet cache (cacheKey digest makfyFileContents makfyFilename contextName)
        ⟨delta,
         (fs.loadCollection (cacheKey digest makfyFileContents makfyFilename contextName)).toOption,
         generateHashCollection fs (effectiveGlobFiles fs globPatterns) .sha1 false⟩,
      globHashEffects fs globPatterns, ?_, ?_⟩
    · rw [getFileChangesModel, hcache, hdelta]
    · exact ⟨_, jsGet_jsSet_same _ _ _, rfl⟩

/-- **C10** — Within a single top-level run, `getFileChangesAsync` memoizes
its result keyed solely by the cache filename, which is derived from the
command-file contents, the context name and the hash algorithm; the glob
patterns are not part of the key.  A second call in the same run with the
same context name but arbitrary (possibly different) glob patterns returns
the first call's cached delta, leaves the memo unchanged, and performs no
glob expansion and no file hashing (its effect list is empty). -/
theorem getFileChanges_memoized_by_cache_filename (fs : FsOps) (digest : String → String)
    (makfyFileContents : Option String) (makfyFilename : String)
    (cache : JsObj String CachedGetFileChangesResult) (contextName : String)
    (globPatterns1 globPatterns2 : List String) :
    ∃ r cache' effects,
      getFileChangesModel fs digest makfyFileContents makfyFilename cache contextName
          globPatterns1 = .ok (r, cache', effects) ∧
      getFileChangesModel fs digest makfyFileContents makfyFilename cache' contextName
          globPatterns2 = .ok (r, cache', []) := by
  obtain ⟨r, cache', effects, h1, c, hc, hcr⟩ :=
    getFileChangesModel_total fs digest makfyFileContents makfyFilename cache contextName
      globPatterns1
  refine ⟨r, cache', effects, h1, ?_⟩
  rw [getFileChangesModel, hc]
  simp [hcr]

theorem length_lt_of_nodup_subset_notmem {α : Type} [DecidableEq α]
    (l1 l2 : List α) (t : α) (hn : l1.Nodup) (hsub : ∀ x ∈ l1, x ∈ l2)
    (htl2 : t ∈ l2) (htl1 : t ∉ l1) : l1.length < l2.length := by
  have h : (t :: l1).Nodup := List.nodup_cons.mpr ⟨htl1, hn⟩
  have hsub' : (t :: l1) ⊆ l2 := by
    intro x hx
    rcases List.mem_cons.mp hx with rfl | hx
    · exact htl2
    · exact hsub x hx
  have := (List.subperm_of_subset h hsub').length_le
  simpa using this

theorem nodup_append_singleton {α : Type} (l : List α) (t : α)
    (hn : l.Nodup) (ht : t ∉ l) : (l ++ [t]).Nodup := by
  rw [List.nodup_append]
  refine ⟨hn, List.nodup_singleton t, ?_⟩
  intro a ha hb
  rw [List.mem_singleton] at hb
  subst hb
  exact ht ha

theorem limiterInv_of_reach {ρ : Type} (n : Nat) (outcome : Nat → ρ)
    (s0 : LimiterState ρ) (h : LimiterReach n outcome s0) : LimiterInv n outcome s0 := by
  induction h with
  | init hn =>
    refine ⟨Nat.zero_le n, ?_, rfl, List.nodup_nil, ?_, List.nodup_nil, rfl, ?_⟩ <;>
      simp [initLimiter]
  | @step s s' hreach hstep ih =>
    obtain ⟨h1, h2, h3, h4, h5, h6, h7, h8⟩ := ih
    cases hstep with
    | submitRun t ht hlt =>
      have hqnil : s.queue = [] := by
        by_contra hq
        exact absurd (h2 hq) (Nat.not_le.mpr hlt)
      refine ⟨hlt, ?_, ?_, ?_, ?_, h6, ?_, h8⟩
      · intro hq
        simp only [hqnil] at hq
        exact absurd rfl hq
      · rw [h3, hqnil]
        simp
      · exact nodup_append_singleton _ _ h4 ht
      · intro x hx
        exact List.mem_append_left _ (h5 x hx)
      · simp only [List.length_append, List.length_singleton, h7]
        omega
    | submitQueue t ht hge =>
      refine ⟨h1, ?_, ?_, ?_, h5, h6, h7, h8⟩
      · intro _
        exact Nat.not_lt.mp hge
      · simp only [h3, List.append_assoc]
      · exact nodup_append_singleton _ _ h4 ht
    | completeEmpty t htS htNs hq =>
      have hlen : s.settledIds.length < s.started.length :=
        length_lt_of_nodup_subset_notmem _ _ t h6 h5 htS htNs
      refine ⟨le_trans (Nat.sub_le _ _) h1, ?_, h3, h4, ?_, ?_, ?_, ?_⟩
      · intro hqne
        simp only [hq] at hqne
        exact absurd rfl hqne
      · intro x hx
        rcases List.mem_append.mp hx with hx | hx
        · exact h5 x hx
        · rw [List.mem_singleton] at hx; subst hx; exact htS
      · exact nodup_append_singleton _ _ h6 htNs
      · simp only [List.length_append, List.length_singleton]
        omega
      · intro pr hpr
        rcases List.mem_append.mp hpr with hpr | hpr
        · exact h8 pr hpr
        · rw [List.mem_singleton] at hpr; subst hpr; rfl
    | completeDequeue t u rest htS htNs hq =>
      have hlen : s.settledIds.length < s.started.length :=
        length_lt_of_nodup_subset_notmem _ _ t h6 h5 htS htNs
      have hact : 1 ≤ s.activeCount := by omega
      refine ⟨?_, ?_, ?_, h4, ?_, ?_, ?_, ?_⟩
      · dsimp only
        omega
      · intro _
        have := h2 (by rw [hq]; exact List.cons_ne_nil u rest)
        dsimp only
        omega
      · rw [h3, hq]
        simp
      · intro x hx
        rcases List.mem_append.mp hx with hx | hx
        · exact List.mem_append_left _ (h5 x hx)
        · rw [List.mem_singleton] at hx; subst hx; exact List.mem_append_left _ htS
      · exact nodup_append_singleton _ _ h6 htNs
      · dsimp only
        simp only [List.length_append, List.length_singleton]
        omega
      · intro pr hpr
        rcases List.mem_append.mp hpr with hpr | hpr
        · exact h8 pr hpr
        · rw [List.mem_singleton] at hpr; subst hpr; rfl

/-- **C3** — For every `n ≥ 1`, the gate returned by
`limitPromiseConcurrency(n)` never has more than `n` wrapped calls
concurrently active (the started-but-unsettled count equals the bookkeeping
counter `activeCount`, which never exceeds `n`), starts calls in submission
(FIFO) order (the started list is always a prefix of the submission list,
with the queue holding the rest in order), and settles each returned promise
with exactly the wrapped call's own resolution value or rejection reason;
calling `limitPromiseConcurrency` with `n < 1` throws immediately. -/
theorem limitPromiseConcurrency_spec :
    (∀ c : Int, c < 1 → limitPromiseConcurrency c = .error "'concurrency' must be >= 1") ∧
    (∀ (ρ : Type) (n : Nat) (outcome : Nat → ρ) (s : LimiterState ρ),
      LimiterReach n outcome s →
        s.activeCount ≤ n ∧
        s.started.length - s.settledIds.length = s.activeCount ∧
        s.submitted = s.started ++ s.queue ∧
        (∀ pr ∈ s.settled, pr.2 = outcome pr.1)) := by
  constructor
  · intro c hc
    rw [limitPromiseConcurrency, dif_pos hc]
  · intro ρ n outcome s hreach
    obtain ⟨h1, _, h3, _, _, _, h7, h8⟩ := limiterInv_of_reach n outcome s hreach
    exact ⟨h1, by omega, h3, h8⟩

/-- Witness for `limitPromiseConcurrency_spec`: the guard rejects `0`, and
the invariant holds in the concrete state reached by submitting task `0`,
submitting task `1` into the queue, and completing task `0`, under capacity
`1`. -/
theorem limitPromiseConcurrency_spec_witness :
    limitPromiseConcurrency 0 = .error "'concurrency' must be >= 1" ∧
    ({ queue := [], activeCount := 1, submitted := [0, 1], started := [0, 1],
       settledIds := [0], settled := [(0, 37)] } : LimiterState Nat).activeCount ≤ 1 ∧
    ([0, 1] : List Nat).length - ([0] : List Nat).length = 1 ∧
    ([0, 1] : List Nat) = [0, 1] ++ [] ∧
    (∀ pr ∈ ([(0, 37)] : List (Nat × Nat)), pr.2 = (fun t => 37 + t) pr.1) := by
  have hreach : LimiterReach 1 (fun t => 37 + t)
      ({ queue := [], activeCount := 1, submitted := [0, 1], started := [0, 1],
         settledIds := [0], settled := [(0, 37)] } : LimiterState Nat) := by
    have h0 : LimiterReach 1 (fun t => 37 + t) (initLimiter Nat) := .init le_rfl
    have h1 : LimiterReach 1 (fun t => 37 + t)
        ({ queue := [], activeCount := 1, submitted := [0], started := [0],
           settledIds := [], settled := [] } : LimiterState Nat) := by
      have := h0.step (LimiterStep.submitRun (initLimiter Nat) 0 (by simp [initLimiter])
        (by simp [initLimiter]))
      simpa [initLimiter] using this
    have h2 : LimiterReach 1 (fun t => 37 + t)
        ({ queue := [1], activeCount := 1, submitted := [0, 1], started := [0],
           settledIds := [], settled := [] } : LimiterState Nat) := by
      have := h1.step (LimiterStep.submitQueue _ 1 (by simp) (by simp))
      simpa using this
    have h3 := h2.step (LimiterStep.completeDequeue _ 0 1 [] (by simp) (by simp) rfl)
    simpa using h3
  have hmain := limitPromiseConcurrency_spec
  refine ⟨hmain.1 0 (by norm_num), ?_⟩
  have := hmain.2 Nat 1 (fun t => 37 + t) _ hreach
  exact ⟨this.1, this.2.1, this.2.2.1, this.2.2.2⟩

/-- **C7 counterexample** — the claim says a single leading `%` suppresses
echoing the invocation line while keeping stdout capture; on `"%pwd"` the
code does the opposite: it still echoes the invocation line
(`silentLevel <= 1`) and it suppresses stdout capture
(`stdio[1] = "ignore"` for `silentLevel !== 0`). -/
theorem planCommandString_single_marker_counterexample :
    ¬((planCommandString ('%' :: ['p', 'w', 'd'])).echoInvocation = false ∧
      (planCommandString ('%' :: ['p', 'w', 'd'])).captureStdout = true) := by
  decide

theorem isPrefixOf_single_false (c : Char) (s : List Char) (hs : s.head? ≠ some c) :
    [c].isPrefixOf s = false := by
  cases s with
  | nil => rfl
  | cons d t =>
    simp only [List.head?_cons, ne_eq, Option.some.injEq] at hs
    simp [List.isPrefixOf, hs, Ne.symm hs]

/-- **C7 (amended)** — For every shell-command string leaf: with no leading
marker the invocation line is echoed and stdout is captured; a single leading
`%` suppresses capture of the subprocess's standard output while still
echoing the invocation line; a doubled `%%` additionally suppresses the echo
of the invocation line; and standard error is routed to the multiplexer at
every verbosity level. -/
theorem planCommandString_verbosity (s : List Char) (hs : s.head? ≠ some '%') :
    planCommandString s = ⟨true, true, true⟩ ∧
    planCommandString ('%' :: s) = ⟨true, false, true⟩ ∧
    planCommandString ('%' :: '%' :: s) = ⟨false, false, true⟩ := by
  have h1 : List.isPrefixOf ['%'] s = false := isPrefixOf_single_false '%' s hs
  refine ⟨?_, ?_, ?_⟩
  · have h2 : List.isPrefixOf ['%', '%'] s = false := by
      cases s with
      | nil => rfl
      | cons d t =>
        simp only [List.head?_cons, ne_eq, Option.some.injEq] at hs
        simp [List.isPrefixOf, Ne.symm hs]
    simp [planCommandString, parseSilentLevel, h1, h2]
  · have h2 : List.isPrefixOf ['%', '%'] ('%' :: s) = false := by
      simp [List.isPrefixOf, h1]
    have h1' : ¬(['%'] <+: s) := by
      intro hp
      rw [← List.isPrefixOf_iff_prefix, h1] at hp
      exact Bool.false_ne_true hp
    simp [planCommandString, parseSilentLevel, h2, h1', List.isPrefixOf]
  · simp [planCommandString, parseSilentLevel, List.isPrefixOf]

/-- Witness for `planCommandString_verbosity` at the command `"pwd"`. -/
theorem planCommandString_verbosity_witness :
    planCommandString ['p', 'w', 'd'] = ⟨true, true, true⟩ ∧
    planCommandString ('%' :: ['p', 'w', 'd']) = ⟨true, false, true⟩ ∧
    planCommandString ('%' :: '%' :: ['p', 'w', 'd']) = ⟨false, false, true⟩ :=
  planCommandString_verbosity ['p', 'w', 'd'] (by decide)

theorem jsGet_jsSpread {κ ν : Type} [DecidableEq κ] (a b : JsObj κ ν) (k : κ)
    (hnodup : (objKeys b).Nodup) :
    jsGet (jsSpread a b) k = match jsGet b k with
      | some v => some v
      | none => jsGet a k := by
  induction b generalizing a with
  | nil => simp [jsSpread, jsGet]
  | cons p rest ih =>
    obtain ⟨k', v'⟩ := p
    simp only [objKeys, List.map_cons, List.nodup_cons] at hnodup
    obtain ⟨hk', hrest⟩ := hnodup
    have hstep : jsSpread a ((k', v') :: rest) = jsSpread (jsSet a k' v') rest := rfl
    rw [hstep, ih _ hrest]
    by_cases h : k' = k
    · subst h
      have hnone : jsGet rest k' = none :=
        (jsGet_eq_none_iff_not_mem_keys rest k').mpr (by simpa [objKeys] using hk')
      simp [jsGet, hnone, jsGet_jsSet_same]
    · simp only [jsGet, if_neg h]
      cases jsGet rest k with
      | none => simp [jsGet_jsSet_other a k' k v' (fun hh => h hh.symm)]
      | some w => rfl

/-- **C8 counterexample** — it is not the case that every variable of the
context environment overlay takes precedence over the ambient process
environment: for the `PATH` variable the spawned value is the node-bin
prefixed *ambient* `PATH`, overriding the overlay's value.  Concretely, with
ambient `PATH=a`, overlay `PATH=o` and node-bin prefix `n`, the spawned
environment maps `PATH` to `na`, not `o`. -/
theorem spawnEnv_overlay_precedence_counterexample :
    ¬(∀ (shType : ShellType) (processEnv ctxEnv : EnvObj) (nodeBinPath k v : List Char),
        jsGet ctxEnv k = some v →
        jsGet (spawnEnv shType processEnv ctxEnv nodeBinPath) k = some v) := by
  intro h
  have := h .sh [(['P', 'A', 'T', 'H'], ['a'])] [(['P', 'A', 'T', 'H'], ['o'])]
    ['n'] ['P', 'A', 'T', 'H'] ['o'] (by decide)
  exact absurd this (by decide)

/-- **C8 (amended)** — In the environment given to a spawned shell command,
every variable of the context's environment overlay (captured from the
previous step's post-command dump) other than the `PATH`/`Path` variable
takes precedence over the same-named ambient process variable, so a non-PATH
variable set by an earlier step is observed by subsequent steps of the same
chain; the `PATH`/`Path` variable instead is set to the ambient process value
prefixed (if not already) with the local `node_modules/.bin` directory,
overriding any overlay value. -/
theorem spawnEnv_env_composition (shType : ShellType) (processEnv ctxEnv : EnvObj)
    (nodeBinPath : List Char) (hnodup : (objKeys ctxEnv).Nodup) :
    (∀ k v, k ≠ getPathEnvName shType → jsGet ctxEnv k = some v →
      jsGet (spawnEnv shType processEnv ctxEnv nodeBinPath) k = some v) ∧
    jsGet (spawnEnv shType processEnv ctxEnv nodeBinPath) (getPathEnvName shType) =
      some (if nodeBinPath.isPrefixOf ((jsGet processEnv (getPathEnvName shType)).getD [])
        then (jsGet processEnv (getPathEnvName shType)).getD []
        else nodeBinPath ++ (jsGet processEnv (getPathEnvName shType)).getD []) := by
  constructor
  · intro k v hk hget
    rw [spawnEnv]
    rw [jsGet_jsSet_other _ _ _ _ hk, jsGet_jsSpread _ _ _ hnodup, hget]
  · rw [spawnEnv]
    exact jsGet_jsSet_same _ _ _

/-- Witness for `spawnEnv_env_composition`: ambient `{PATH=a, X=x}`, overlay
`{X=y, PATH=o}`, node-bin prefix `n`: the spawned environment maps `X` to the
overlay's `y` and `PATH` to `na`. -/
theorem spawnEnv_env_composition_witness :
    jsGet (spawnEnv .sh [(['P', 'A', 'T', 'H'], ['a']), (['X'], ['x'])]
        [(['X'], ['y']), (['P', 'A', 'T', 'H'], ['o'])] ['n']) ['X'] = some ['y'] ∧
    jsGet (spawnEnv .sh [(['P', 'A', 'T', 'H'], ['a']), (['X'], ['x'])]
        [(['X'], ['y']), (['P', 'A', 'T', 'H'], ['o'])] ['n']) ['P', 'A', 'T', 'H']
      = some ['n', 'a'] := by
  have h := spawnEnv_env_composition .sh
    [(['P', 'A', 'T', 'H'], ['a']), (['X'], ['x'])]
    [(['X'], ['y']), (['P', 'A', 'T', 'H'], ['o'])] ['n'] (by decide)
  refine ⟨h.1 ['X'] ['y'] (by decide) (by decide), ?_⟩
  have h2 := h.2
  simpa using h2

theorem applyCommits_frame (ops : List (CtxId × List Char × List Char)) :
    ∀ (h : CtxHeap) (q : CtxId), (∀ op ∈ ops, op.1 ≠ q) → applyCommits h ops q = h q := by
  induction ops with
  | nil => intro h q _; rfl
  | cons op rest ih =>
    intro h q hops
    have hop : op.1 ≠ q := hops op (List.mem_cons_self _ _)
    have hrest : ∀ o ∈ rest, o.1 ≠ q := fun o ho => hops o (List.mem_cons_of_mem _ ho)
    show applyCommits (commitContext h op.1 op.2.1 op.2.2) rest q = h q
    rw [ih _ _ hrest, commitContext, if_neg (fun hh => hop hh.symm)]

/-- **C6** — Forking an execution context for parallel siblings copies the
context shallowly at fork time: the forked child initially observes the
parent's working directory and environment overlay as of the fork; and no
sequence of in-place commits of cwd/env performed on sibling contexts (after
their subprocesses exit with code 0) is ever observed by the parent context
or by any other context not among the committing ones. -/
theorem forkContext_shallow_copy_isolated (h : CtxHeap) (parent child : CtxId)
    (syncMode : Bool) (idStack : List ColoredText)
    (ops : List (CtxId × List Char × List Char)) (q : CtxId)
    (hq : ∀ op ∈ ops, op.1 ≠ q) :
    ((forkHeap h parent child syncMode idStack) child).cwd = (h parent).cwd ∧
    ((forkHeap h parent child syncMode idStack) child).env = (h parent).env ∧
    applyCommits (forkHeap h parent child syncMode idStack) ops q
      = (forkHeap h parent child syncMode idStack) q := by
  refine ⟨?_, ?_, applyCommits_frame ops _ q hq⟩ <;>
    simp [forkHeap]

/-- Witness for `forkContext_shallow_copy_isolated`: context `0` (with a
working directory and one environment variable) forked to context `1`; a
commit on sibling `2` and another on child `1` leave the parent `0`
untouched. -/
theorem forkContext_shallow_copy_isolated_witness :
    (let h : CtxHeap := fun _ =>
      { cwd := some ['/', 'a'], env := [(['X'], ['1'])], syncMode := true, idStack := [] }
     ((forkHeap h 0 1 false []) 1).cwd = (h 0).cwd ∧
     ((forkHeap h 0 1 false []) 1).env = (h 0).env ∧
     applyCommits (forkHeap h 0 1 false []) [(2, ['/', 'b'], ['Y', '=', '2']), (1, ['/', 'c'], [])] 0
       = (forkHeap h 0 1 false []) 0) := by
  exact forkContext_shallow_copy_isolated _ 0 1 false []
    [(2, ['/', 'b'], ['Y', '=', '2']), (1, ['/', 'c'], [])] 0 (by decide)

/-- **C2** — For every sequential specification `[a, b, c]` executed by
`exec`: node `b` does not begin executing until `a`'s promise has settled
(when `b` is dispatched at all, the trace begins `start a, settle a, start b`,
so `b`'s dispatch strictly follows `a`'s settlement); and if `a` rejects then
`b` and `c` are never executed (no `start b` or `start c` event occurs) and
the `exec` call rejects, propagating `a`'s failure to the awaiting caller. -/
theorem innerExecSeq_sequential_and_failure (sem : List Char → Option String)
    (a b c : List Char) (hab : b ≠ a) (hac : c ≠ a) :
    (∀ err, sem a = some err →
      innerExecSeq sem [a, b, c] = ([.start a, .settle a], some err) ∧
      SeqEvent.start b ∉ (innerExecSeq sem [a, b, c]).1 ∧
      SeqEvent.start c ∉ (innerExecSeq sem [a, b, c]).1) ∧
    (sem a = none →
      (innerExecSeq sem [a, b, c]).1.take 3 = [.start a, .settle a, .start b]) := by
  constructor
  · intro err herr
    have h1 : innerExecSeq sem [a, b, c] = ([.start a, .settle a], some err) := by
      rw [innerExecSeq]
      simp [runNode, herr]
    refine ⟨h1, ?_, ?_⟩ <;> rw [h1] <;> simp [hab, hac]
  · intro hok
    rw [innerExecSeq]
    simp only [runNode, hok]
    rw [innerExecSeq]
    cases hb : sem b with
    | some err => simp [runNode, hb]
    | none =>
      simp only [runNode, hb]
      rw [innerExecSeq]
      cases hc : sem c <;> simp [runNode, hc]

/-- Witness for `innerExecSeq_sequential_and_failure`: with `a` rejecting,
the call rejects with `a`'s failure and neither `b` nor `c` starts; with all
nodes fulfilled, `b` starts only after `a` settles. -/
theorem innerExecSeq_sequential_and_failure_witness :
    (innerExecSeq (fun s => if s = ['a'] then some "boom" else none) [['a'], ['b'], ['c']]
        = ([.start ['a'], .settle ['a']], some "boom") ∧
      SeqEvent.start ['b'] ∉ (innerExecSeq (fun s => if s = ['a'] then some "boom" else none)
        [['a'], ['b'], ['c']]).1 ∧
      SeqEvent.start ['c'] ∉ (innerExecSeq (fun s => if s = ['a'] then some "boom" else none)
        [['a'], ['b'], ['c']]).1) ∧
    (innerExecSeq (fun _ => none) [['a'], ['b'], ['c']]).1.take 3
      = [.start ['a'], .settle ['a'], .start ['b']] := by
  constructor
  · exact (innerExecSeq_sequential_and_failure
      (fun s => if s = ['a'] then some "boom" else none) ['a'] ['b'] ['c']
      (by decide) (by decide)).1 "boom" (by decide)
  · exact (innerExecSeq_sequential_and_failure (fun _ => none) ['a'] ['b'] ['c']
      (by decide) (by decide)).2 rfl

theorem splitOnChar_ne_nil (sep : Char) (s : List Char) : splitOnChar sep s ≠ [] := by
  cases s with
  | nil => simp [splitOnChar]
  | cons c rest =>
    rw [splitOnChar]
    split
    · simp
    · split <;> simp

theorem not_mem_splitOnChar (sep : Char) (s : List Char) :
    ∀ l ∈ splitOnChar sep s, sep ∉ l := by
  induction s with
  | nil =>
    intro l hl
    rw [splitOnChar, List.mem_singleton] at hl
    subst hl
    simp
  | cons c rest ih =>
    intro l hl
    rw [splitOnChar] at hl
    by_cases hc : c = sep
    · rw [if_pos hc] at hl
      rcases List.mem_cons.mp hl with rfl | hl
      · simp
      · exact ih l hl
    · rw [if_neg hc] at hl
      revert hl
      split
      · next hsplit => exact absurd hsplit (splitOnChar_ne_nil sep rest)
      · next l0 ls hsplit =>
        intro hl
        rcases List.mem_cons.mp hl with rfl | hl
        · intro hmem
          rcases List.mem_cons.mp hmem with rfl | hmem
          · exact hc rfl
          · exact ih l0 (hsplit ▸ List.mem_cons_self _ _) hmem
        · exact ih l (hsplit ▸ List.mem_cons_of_mem _ hl)

theorem splitOnChar_no_sep (sep : Char) (l : List Char) (h : sep ∉ l) :
    splitOnChar sep l = [l] := by
  induction l with
  | nil => rfl
  | cons c t ih =>
    have hc : ¬c = sep := fun hh => h (hh ▸ List.mem_cons_self _ _)
    have ht : sep ∉ t := fun hh => h (List.mem_cons_of_mem _ hh)
    rw [splitOnChar, if_neg hc, ih ht]

theorem splitOnChar_append_sep (sep : Char) (l rest : List Char) (h : sep ∉ l) :
    splitOnChar sep (l ++ sep :: rest) = l :: splitOnChar sep rest := by
  induction l with
  | nil => simp [splitOnChar]
  | cons c t ih =>
    have hc : ¬c = sep := fun hh => h (hh ▸ List.mem_cons_self _ _)
    have ht : sep ∉ t := fun hh => h (List.mem_cons_of_mem _ hh)
    rw [List.cons_append, splitOnChar, if_neg hc, ih ht]

theorem splitOnChar_intercalateChar (sep : Char) (ls : List (List Char))
    (h : ∀ l ∈ ls, sep ∉ l) (hne : ls ≠ []) :
    splitOnChar sep (intercalateChar sep ls) = ls := by
  induction ls with
  | nil => exact absurd rfl hne
  | cons l rest ih =>
    cases rest with
    | nil =>
      rw [intercalateChar]
      exact splitOnChar_no_sep sep l (h l (List.mem_cons_self _ _))
    | cons r rs =>
      rw [intercalateChar, splitOnChar_append_sep sep l _ (h l (List.mem_cons_self _ _))]
      rw [ih (fun x hx => h x (List.mem_cons_of_mem _ hx)) (List.cons_ne_nil r rs)]

theorem prefixLinesAux_length (pre : List Char) (le : Bool) :
    ∀ (isF : Bool) (ls : List (List Char)), (prefixLinesAux pre le isF ls).length = ls.length := by
  intro isF ls
  induction ls generalizing isF with
  | nil => rfl
  | cons l rest ih =>
    cases rest with
    | nil =>
      rw [prefixLinesAux]
      split <;> rfl
    | cons r rs =>
      rw [prefixLinesAux]
      simp only [List.length_cons]
      rw [ih false]
      simp

theorem prefixLinesAux_head (pre : List Char) (le : Bool) (isF : Bool)
    (l : List Char) (rest : List (List Char)) :
    (prefixLinesAux pre le isF (l :: rest)).head? =
      some (if (rest = [] ∧ l = []) ∨ (isF = true ∧ le = false) then l else pre ++ l) := by
  cases rest with
  | nil =>
    rw [prefixLinesAux]
    by_cases h1 : l = [] ∨ (isF = true ∧ le = false)
    · rw [if_pos h1, if_pos ?_]
      · rfl
      · rcases h1 with h1 | h1
        · exact Or.inl ⟨rfl, h1⟩
        · exact Or.inr h1
    · rw [if_neg h1, if_neg ?_]
      · rfl
      · intro hcontra
        rcases hcontra with ⟨_, hl⟩ | hc
        · exact h1 (Or.inl hl)
        · exact h1 (Or.inr hc)
  | cons r rs =>
    rw [prefixLinesAux]
    by_cases h1 : isF = true ∧ le = false
    · rw [if_pos h1, if_pos (Or.inr h1)]
      rfl
    · rw [if_neg h1, if_neg ?_]
      · rfl
      · intro hcontra
        rcases hcontra with ⟨hr, _⟩ | hc
        · exact List.cons_ne_nil r rs hr
        · exact h1 hc

theorem prefixLinesAux_get_tail (pre : List Char) (le : Bool) :
    ∀ (ls : List (List Char)) (isF : Bool) (i : Nat) (l' : List Char), 1 ≤ i →
      ls.get? i = some l' →
      (prefixLinesAux pre le isF ls).get? i =
        some (if i = ls.length - 1 ∧ l' = [] then l' else pre ++ l') := by
  intro ls
  induction ls with
  | nil => intro isF i l' _ hget; simp at hget
  | cons l rest ih =>
    intro isF i l' hi hget
    cases rest with
    | nil =>
      exfalso
      cases i with
      | zero => omega
      | succ j => simp at hget
    | cons r rs =>
      cases i with
      | zero => omega
      | succ j =>
        rw [prefixLinesAux]
        simp only [List.get?_cons_succ] at hget ⊢
        cases j with
        | zero =>
          simp only [List.get?_cons_zero, Option.some.injEq] at hget
          subst hget
          have hhead := prefixLinesAux_head pre le false r rs
          rw [← List.get?_zero] at hhead
          rw [hhead]
          simp only [Bool.false_eq_true, false_and, and_false, or_false]
          by_cases hr : rs = [] ∧ r = []
          · rw [if_pos hr, if_pos ?_]
            refine ⟨?_, hr.2⟩
            simp [hr.1]
          · rw [if_neg hr, if_neg ?_]
            intro hcontra
            obtain ⟨hidx, hl'⟩ := hcontra
            apply hr
            refine ⟨?_, hl'⟩
            simp only [List.length_cons] at hidx
            have : rs.length = 0 := by omega
            exact List.eq_nil_of_length_eq_zero this
        | succ j' =>
          have := ih false (j' + 1) l' (by omega) hget
          rw [this]
          by_cases hcond : j' + 1 = (r :: rs).length - 1 ∧ l' = []
          · rw [if_pos hcond, if_pos ?_]
            obtain ⟨hidx, hl'⟩ := hcond
            refine ⟨?_, hl'⟩
            simp only [List.length_cons] at hidx ⊢
            omega
          · rw [if_neg hcond, if_neg ?_]
            intro hcontra
            obtain ⟨hidx, hl'⟩ := hcontra
            apply hcond
            refine ⟨?_, hl'⟩
            simp only [List.length_cons] at hidx ⊢
            omega

theorem processChunk_snd (pre : List Char) (hasSocket : String → Bool)
    (st : FlushState) (b : OutChunk) (hsock : hasSocket b.type = true) :
    (processChunk pre hasSocket st b).2 =
      some (intercalateChar '\n' (prefixLinesAux pre (chunkLE st b) true
        (splitOnChar '\n' (b.data.filter (fun c => c ≠ '\r'))))) := by
  rw [processChunk, chunkLE]
  by_cases hreset : st.lastType ≠ some b.type <;> simp [hreset, hsock]

theorem processChunk_lastType (pre : List Char) (hasSocket : String → Bool)
    (st : FlushState) (b : OutChunk) :
    (processChunk pre hasSocket st b).1.lastType = some b.type := by
  rw [processChunk]
  by_cases hreset : st.lastType ≠ some b.type
  · by_cases hsock : hasSocket b.type <;> simp [hreset, hsock]
  · rw [not_not] at hreset
    by_cases hsock : hasSocket b.type <;> simp [hreset, hsock]

theorem flushStateAt_lastType (pre : List Char) (hasSocket : String → Bool)
    (bs : List OutChunk) (k : Nat) (bprev : OutChunk) (h : bs.get? k = some bprev) :
    (flushStateAt pre hasSocket (bs.take (k + 1))).lastType = some bprev.type := by
  have htake : bs.take (k + 1) = bs.take k ++ [bprev] := by
    have h' : bs[k]? = some bprev := by
      rw [← List.get?_eq_getElem?]
      exact h
    rw [List.take_succ, h']
    rfl
  rw [flushStateAt, htake, List.foldl_append]
  exact processChunk_lastType pre hasSocket _ bprev

theorem prefixLinesAux_no_sep (pre : List Char) (le : Bool) (hpre : '\n' ∉ pre) :
    ∀ (isF : Bool) (ls : List (List Char)), (∀ l ∈ ls, '\n' ∉ l) →
      ∀ x ∈ prefixLinesAux pre le isF ls, '\n' ∉ x := by
  intro isF ls
  induction ls generalizing isF with
  | nil => intro _ x hx; simp [prefixLinesAux] at hx
  | cons l rest ih =>
    intro hls x hx
    have hl : '\n' ∉ l := hls l (List.mem_cons_self _ _)
    have hpl : '\n' ∉ pre ++ l := by
      intro hmem
      rcases List.mem_append.mp hmem with hmem | hmem
      · exact hpre hmem
      · exact hl hmem
    cases rest with
    | nil =>
      rw [prefixLinesAux] at hx
      revert hx
      split <;> intro hx <;> rw [List.mem_singleton] at hx <;> subst hx
      · exact hl
      · exact hpl
    | cons r rs =>
      rw [prefixLinesAux] at hx
      rcases List.mem_cons.mp hx with rfl | hx
      · split <;> assumption
      · exact ih false (fun y hy => hls y (List.mem_cons_of_mem _ hy)) x hx

/-- **C9** — On every flush of the output multiplexer, the context's
identifying prefix is prepended only to lines that begin after a newline.
For the chunk at position `k` of the flushed buffer, writing `st` for the
threaded flush state before it and `lines` for its `\r`-stripped data split
on `\n`: the emitted text splits back into exactly one emitted segment per
line; every segment after the first carries the prefix except a trailing
empty segment; the first segment of a chunk that continues a previous
unterminated line of the same stream kind is emitted without a prefix,
verbatim; a first segment under a changed stream kind (or after a terminated
line) is freshly prefixed; and the state before chunk `k` records the
previous chunk's stream kind, so a change of stream kind between consecutive
chunks resets the continuation state. -/
theorem outputBuffer_flush_prefixing (pre : List Char) (hasSocket : String → Bool)
    (bs : List OutChunk) (k : Nat) (b : OutChunk) (st : FlushState)
    (lines : List (List Char))
    (hpre : '\n' ∉ pre)
    (hst : st = flushStateAt pre hasSocket (bs.take k))
    (_hb : bs.get? k = some b)
    (hsock : hasSocket b.type = true)
    (hlines : lines = splitOnChar '\n' (b.data.filter (fun c => c ≠ '\r'))) :
    ∃ text, (processChunk pre hasSocket st b).2 = some text ∧
      (splitOnChar '\n' text).length = lines.length ∧
      (∀ i l, 1 ≤ i → lines.get? i = some l →
        (splitOnChar '\n' text).get? i =
          some (if i = lines.length - 1 ∧ l = [] then l else pre ++ l)) ∧
      (st.lastType = some b.type → st.lastEndedInNewLine = false →
        (splitOnChar '\n' text).get? 0 = lines.get? 0) ∧
      ((st.lastType ≠ some b.type ∨ st.lastEndedInNewLine = true) →
        ∀ l, lines.get? 0 = some l → ¬(lines.length = 1 ∧ l = []) →
        (splitOnChar '\n' text).get? 0 = some (pre ++ l)) ∧
      (∀ j bprev, k = j + 1 → bs.get? j = some bprev →
        st.lastType = some bprev.type) := by
  have hnosep : ∀ l ∈ lines, '\n' ∉ l := by
    rw [hlines]
    exact not_mem_splitOnChar '\n' _
  have hlne : lines ≠ [] := by
    rw [hlines]
    exact splitOnChar_ne_nil '\n' _
  refine ⟨_, processChunk_snd pre hasSocket st b hsock, ?_⟩
  rw [← hlines]
  have hre : splitOnChar '\n'
      (intercalateChar '\n' (prefixLinesAux pre (chunkLE st b) true lines)) =
      prefixLinesAux pre (chunkLE st b) true lines := by
    apply splitOnChar_intercalateChar
    · exact prefixLinesAux_no_sep pre (chunkLE st b) hpre true lines hnosep
    · intro hcon
      have := prefixLinesAux_length pre (chunkLE st b) true lines
      rw [hcon] at this
      exact hlne (List.eq_nil_of_length_eq_zero this.symm)
  rw [hre]
  obtain ⟨l0, rest, rfl⟩ : ∃ l0 rest, lines = l0 :: rest := by
    cases lines with
    | nil => exact absurd rfl hlne
    | cons l0 rest => exact ⟨l0, rest, rfl⟩
  refine ⟨prefixLinesAux_length pre (chunkLE st b) true _, ?_, ?_, ?_, ?_⟩
  · intro i l hi hget
    exact prefixLinesAux_get_tail pre (chunkLE st b) _ true i l hi hget
  · intro htype hle
    have hchunk : chunkLE st b = false := by
      rw [chunkLE, if_neg (by rw [htype]; exact fun h => h rfl), hle]
    rw [List.get?_zero, List.get?_zero, prefixLinesAux_head, hchunk]
    simp
  · intro hfresh l hget hnsingle
    have hchunk : chunkLE st b = true := by
      rcases hfresh with hfresh | hfresh
      · rw [chunkLE, if_pos hfresh]
      · rw [chunkLE]
        split
        · rfl
        · exact hfresh
    simp only [List.get?_cons_zero, Option.some.injEq] at hget
    subst hget
    rw [List.get?_zero, prefixLinesAux_head, hchunk]
    have hcond : ¬((rest = [] ∧ l0 = []) ∨ (true = true ∧ (true : Bool) = false)) := by
      intro hcontra
      rcases hcontra with ⟨hrest, hl⟩ | ⟨_, hff⟩
      · exact hnsingle ⟨by simp [hrest], hl⟩
      · exact absurd hff (by simp)
    rw [if_neg hcond]
  · intro j bprev hk hj
    rw [hst, hk]
    exact flushStateAt_lastType pre hasSocket bs j bprev hj

/-- Witness for `outputBuffer_flush_prefixing`: a flush of two `out` chunks
`"ab"` (unterminated) then `"c\nd"`; before the second chunk the state is
`⟨false, some "out"⟩`, its lines are `["c", "d"]`, the continuation segment
`"c"` is emitted unprefixed and the segment after the newline is prefixed. -/
theorem outputBuffer_flush_prefixing_witness :
    ∃ text,
      (processChunk ['P'] (fun _ => true) ⟨false, some "out"⟩
        ⟨"out", ['c', '\n', 'd']⟩).2 = some text ∧
      (splitOnChar '\n' text).length = ([['c'], ['d']] : List (List Char)).length ∧
      (∀ i l, 1 ≤ i → ([['c'], ['d']] : List (List Char)).get? i = some l →
        (splitOnChar '\n' text).get? i =
          some (if i = ([['c'], ['d']] : List (List Char)).length - 1 ∧ l = [] then l
            else ['P'] ++ l)) ∧
      ((⟨false, some "out"⟩ : FlushState).lastType = some "out" →
        (⟨false, some "out"⟩ : FlushState).lastEndedInNewLine = false →
        (splitOnChar '\n' text).get? 0 = ([['c'], ['d']] : List (List Char)).get? 0) ∧
      (((⟨false, some "out"⟩ : FlushState).lastType ≠ some "out" ∨
          (⟨false, some "out"⟩ : FlushState).lastEndedInNewLine = true) →
        ∀ l, ([['c'], ['d']] : List (List Char)).get? 0 = some l →
          ¬(([['c'], ['d']] : List (List Char)).length = 1 ∧ l = []) →
          (splitOnChar '\n' text).get? 0 = some (['P'] ++ l)) ∧
      (∀ j bprev, 1 = j + 1 →
        ([⟨"out", ['a', 'b']⟩, ⟨"out", ['c', '\n', 'd']⟩] : List OutChunk).get? j
          = some bprev →
        (⟨false, some "out"⟩ : FlushState).lastType = some bprev.type) :=
  outputBuffer_flush_prefixing ['P'] (fun _ => true)
    [⟨"out", ['a', 'b']⟩, ⟨"out", ['c', '\n', 'd']⟩] 1 ⟨"out", ['c', '\n', 'd']⟩
    ⟨false, some "out"⟩ [['c'], ['d']] (by decide) (by decide) rfl rfl (by decide)

theorem interleave_mem {α : Type} {t1 t2 t : List α} (h : Interleave t1 t2 t) (e : α)
    (he : e ∈ t1 ∨ e ∈ t2) : e ∈ t := by
  induction h with
  | nil => rcases he with he | he <;> simp at he
  | left hi ih =>
    rcases he with he | he
    · rcases List.mem_cons.mp he with rfl | he
      · exact List.mem_cons_self _ _
      · exact List.mem_cons_of_mem _ (ih (Or.inl he))
    · exact List.mem_cons_of_mem _ (ih (Or.inr he))
  | right hi ih =>
    rcases he with he | he
    · exact List.mem_cons_of_mem _ (ih (Or.inl he))
    · rcases List.mem_cons.mp he with rfl | he
      · exact List.mem_cons_self _ _
      · exact List.mem_cons_of_mem _ (ih (Or.inr he))

/-- In every complete trace of a process, every leaf's finish event occurs:
a fan-out/join settles only after all its branches have settled. -/
theorem procTrace_all_finish {p : Proc} {t : List PEvent} (h : ProcTrace p t) :
    ∀ lf ∈ leavesOf p, PEvent.finish lf ∈ t := by
  induction h with
  | skip => intro lf hlf; simp [leavesOf] at hlf
  | leaf k ctx s =>
    intro lf hlf
    rw [leavesOf, List.mem_singleton] at hlf
    subst hlf
    simp
  | seqP h1 h2 ih1 ih2 =>
    intro lf hlf
    rw [leavesOf] at hlf
    rcases List.mem_append.mp hlf with hlf | hlf
    · exact List.mem_append_left _ (ih1 lf hlf)
    · exact List.mem_append_right _ (ih2 lf hlf)
  | parP h1 h2 hint ih1 ih2 =>
    intro lf hlf
    rw [leavesOf] at hlf
    rcases List.mem_append.mp hlf with hlf | hlf
    · exact interleave_mem hint _ (Or.inl (ih1 lf hlf))
    · exact interleave_mem hint _ (Or.inr (ih2 lf hlf))

theorem interleave_nil_left {α : Type} {t2 t : List α} (h : Interleave [] t2 t) :
    t = t2 := by
  generalize hgen : ([] : List α) = t1 at h
  induction h with
  | nil => rfl
  | left hi ih => exact absurd hgen (by simp)
  | right hi ih => rw [ih hgen]

theorem interleave_nil_right {α : Type} {t1 t : List α} (h : Interleave t1 [] t) :
    t = t1 := by
  generalize hgen : ([] : List α) = t2 at h
  induction h with
  | nil => rfl
  | left hi ih => rw [ih hgen]
  | right hi ih => exact absurd hgen (by simp)

/-- Filtering an interleaved trace to the right branch's events recovers the
right branch's trace in order. -/
theorem interleave_filter_right {α : Type} (p : α → Bool) {t1 t2 t : List α}
    (h : Interleave t1 t2 t) (h1 : ∀ e ∈ t1, p e = false) (h2 : ∀ e ∈ t2, p e = true) :
    t.filter p = t2 := by
  induction h with
  | nil => rfl
  | left hi ih =>
    rw [List.filter_cons_of_neg (by simp [h1 _ (List.mem_cons_self _ _)])]
    exact ih (fun e he => h1 e (List.mem_cons_of_mem _ he)) h2
  | right hi ih =>
    rw [List.filter_cons_of_pos (h2 _ (List.mem_cons_self _ _))]
    rw [ih h1 (fun e he => h2 e (List.mem_cons_of_mem _ he))]

theorem exPlan_eq : planCmd exCtx0 exSpec =
    .parP (.seqP (.leaf .shell exCtxA ['a']) .skip)
      (.parP (.seqP (.seqP (.leaf .shell exCtxBC ['b'])
        (.seqP (.leaf .shell exCtxBC ['c']) .skip)) .skip) .skip) := rfl

theorem trace_skip_eq {t : List PEvent} (h : ProcTrace .skip t) : t = [] := by
  cases h; rfl

theorem trace_leaf_eq {k : LeafKind} {ctx : SchedCtx} {s : List Char} {t : List PEvent}
    (h : ProcTrace (.leaf k ctx s) t) :
    t = [.start ⟨k, ctx, s⟩, .finish ⟨k, ctx, s⟩] := by
  cases h; rfl

/-- The `a`-branch of the example has the unique trace `[start a, finish a]`. -/
theorem exTraceA {t : List PEvent} (h : ProcTrace (.seqP (.leaf .shell exCtxA ['a']) .skip) t) :
    t = [.start exLeafA, .finish exLeafA] := by
  cases h with
  | seqP h1 h2 =>
    rw [trace_leaf_eq h1, trace_skip_eq h2]
    rfl

/-- The `[b, c]`-branch of the example has the unique, strictly sequential
trace `[start b, finish b, start c, finish c]`. -/
theorem exTraceBC {t : List PEvent}
    (h : ProcTrace (.seqP (.seqP (.leaf .shell exCtxBC ['b'])
      (.seqP (.leaf .shell exCtxBC ['c']) .skip)) .skip) t) :
    t = [.start exLeafB, .finish exLeafB, .start exLeafC, .finish exLeafC] := by
  cases h with
  | seqP h1 h2 =>
    rw [trace_skip_eq h2]
    cases h1 with
    | seqP h3 h4 =>
      cases h4 with
      | seqP h5 h6 =>
        rw [trace_leaf_eq h3, trace_leaf_eq h5, trace_skip_eq h6]
        rfl

/-- **C1 (amended)** — For every command-specification list encountered while
the executing context is in sequential mode, `exec` forks one fresh child
context per element — same identifier stack, extended with a new per-branch
numeric id and its palette color, in parallel mode — and runs all elements
through the concurrency-limited fan-out/join, which settles only after every
element has settled (every leaf's finish event is in every complete trace).
For every list encountered while the context is in parallel mode, that
list's elements run sequentially *in the same context*, which stays in
parallel mode — the inversion therefore applies between the first two
nesting depths only and does not alternate at deeper levels.  In
`[[a, [b, c]]]` under a sequential parent, `a` and `[b, c]` run concurrently
(an interleaved trace exists) while `b` then `c` run sequentially (every
trace, restricted to the `[b, c]` branch, is exactly
`start b, finish b, start c, finish c`). -/
theorem scheduler_inversion :
    (∀ (ctx : SchedCtx) (cmds : List ExecCommand), ctx.syncMode = true →
      planCmd ctx (.arr cmds) = parAll (planFork ctx 0 cmds)) ∧
    (∀ (ctx : SchedCtx) (i : Nat) (c : ExecCommand) (rest : List ExecCommand),
      planFork ctx i (c :: rest) =
        planCmds (forkContext ctx ctx.idStack false i) [c] :: planFork ctx (i + 1) rest) ∧
    (∀ (ctx : SchedCtx) (stack : List ColoredText) (i : Nat),
      forkContext ctx stack false i = ⟨stack ++ [⟨toString i, colorFor i⟩], false⟩) ∧
    (∀ (ctx : SchedCtx) (cmds : List ExecCommand), ctx.syncMode = false →
      planCmd ctx (.arr cmds) = planCmds ctx cmds) ∧
    (∀ (p : Proc) (t : List PEvent), ProcTrace p t →
      ∀ lf ∈ leavesOf p, PEvent.finish lf ∈ t) ∧
    (∃ t, ProcTrace (planCmd exCtx0 exSpec) t ∧
      t = [.start exLeafA, .start exLeafB, .finish exLeafB, .start exLeafC,
           .finish exLeafC, .finish exLeafA]) ∧
    (∀ t, ProcTrace (planCmd exCtx0 exSpec) t →
      t.filter isBCEvent =
        [.start exLeafB, .finish exLeafB, .start exLeafC, .finish exLeafC]) := by
  refine ⟨?_, ?_, ?_, ?_, ?_, ?_, ?_⟩
  · intro ctx cmds hsync
    rw [planCmd, if_pos hsync]
  · intro ctx i c rest
    rfl
  · intro ctx stack i
    rfl
  · intro ctx cmds hsync
    rw [planCmd, if_neg (by rw [hsync]; exact Bool.false_ne_true)]
  · exact fun p t h => procTrace_all_finish h
  · refine ⟨_, ?_, rfl⟩
    rw [exPlan_eq]
    exact ProcTrace.parP
      (ProcTrace.seqP (ProcTrace.leaf .shell exCtxA ['a']) ProcTrace.skip)
      (ProcTrace.parP
        (ProcTrace.seqP (ProcTrace.seqP (ProcTrace.leaf .shell exCtxBC ['b'])
          (ProcTrace.seqP (ProcTrace.leaf .shell exCtxBC ['c']) ProcTrace.skip))
          ProcTrace.skip)
        ProcTrace.skip
        (.left (.left (.left (.left .nil)))))
      (.left (.right (.right (.right (.right (.left .nil))))))
  · intro t h
    rw [exPlan_eq] at h
    cases h with
    | parP h1 h2 hint =>
      cases h2 with
      | parP h2a h2b hint2 =>
        rw [trace_skip_eq h2b] at hint2
        have ht2 := interleave_nil_right hint2
        rw [ht2, exTraceBC h2a] at hint
        rw [exTraceA h1] at hint
        apply interleave_filter_right isBCEvent hint
        · intro e he
          rcases List.mem_cons.mp he with rfl | he
          · decide
          · rcases List.mem_cons.mp he with rfl | he
            · decide
            · simp at he
        · intro e he
          rcases List.mem_cons.mp he with rfl | he
          · decide
          rcases List.mem_cons.mp he with rfl | he
          · decide
          rcases List.mem_cons.mp he with rfl | he
          · decide
          rcases List.mem_cons.mp he with rfl | he
          · decide
          simp at he

/-- Witness for `scheduler_inversion` at concrete inputs: the sequential-mode
and parallel-mode list equations at `⟨[], true⟩`/`⟨[], false⟩`, the
all-finishes property at a single-leaf trace, and the example's branch
restriction at the interleaved trace it produces. -/
theorem scheduler_inversion_witness :
    planCmd ⟨[], true⟩ (.arr [.null]) = parAll (planFork ⟨[], true⟩ 0 [.null]) ∧
    planCmd ⟨[], false⟩ (.arr [.null]) = planCmds ⟨[], false⟩ [.null] ∧
    PEvent.finish ⟨.shell, ⟨[], true⟩, ['x']⟩ ∈
      [PEvent.start ⟨.shell, ⟨[], true⟩, ['x']⟩,
       PEvent.finish ⟨.shell, ⟨[], true⟩, ['x']⟩] ∧
    List.filter isBCEvent
      [.start exLeafA, .start exLeafB, .finish exLeafB, .start exLeafC,
       .finish exLeafC, .finish exLeafA] =
      [.start exLeafB, .finish exLeafB, .start exLeafC, .finish exLeafC] := by
  obtain ⟨h1, h2, h3, h4, h5, h6, h7⟩ := scheduler_inversion
  refine ⟨h1 ⟨[], true⟩ [.null] rfl, h4 ⟨[], false⟩ [.null] rfl, ?_, ?_⟩
  · exact h5 (.leaf .shell ⟨[], true⟩ ['x']) _ (ProcTrace.leaf .shell ⟨[], true⟩ ['x'])
      ⟨.shell, ⟨[], true⟩, ['x']⟩ (by simp [leavesOf])
  · obtain ⟨t, ht, hteq⟩ := h6
    have hfil := h7 t ht
    rw [hteq] at hfil
    exact hfil

theorem cexPlan_eq : planCmd ⟨[], true⟩ cexSpec =
    .parP (.seqP (.seqP (.seqP (.leaf .shell cexCtx ['b'])
      (.seqP (.leaf .shell cexCtx ['c']) .skip)) .skip) .skip) .skip := rfl

/-- **C1 counterexample** — were the scheduling inversion to alternate at
every nesting depth, the depth-3 list `[b, c]` of `[[[b, c]]]` (reached in
"sequential execution" after two inversions) would fork `b` and `c`
concurrently, admitting a trace in which `c` starts before `b` finishes.  No
such trace exists: every trace of the plan runs `b` to completion before `c`
starts, because the context forked at depth 1 stays in parallel mode and
every deeper list takes the sequential path. -/
theorem scheduler_alternation_counterexample :
    ¬∃ t, ProcTrace (planCmd ⟨[], true⟩ cexSpec) t ∧
      ∃ i j, i < j ∧ t.get? i = some (.start cexLeafC) ∧
        t.get? j = some (.finish cexLeafB) := by
  rintro ⟨t, ht, i, j, hij, hi, hj⟩
  rw [cexPlan_eq] at ht
  have hteq : t = [.start cexLeafB, .finish cexLeafB, .start cexLeafC, .finish cexLeafC] := by
    cases ht with
    | parP h1 h2 hint =>
      rw [trace_skip_eq h2] at hint
      rw [interleave_nil_right hint]
      cases h1 with
      | seqP h3 h4 =>
        rw [trace_skip_eq h4]
        cases h3 with
        | seqP h5 h6 =>
          rw [trace_skip_eq h6]
          cases h5 with
          | seqP h7 h8 =>
            cases h8 with
            | seqP h9 h10 =>
              rw [trace_leaf_eq h7, trace_leaf_eq h9, trace_skip_eq h10]
              rfl
  rw [hteq] at hi hj
  have hi2 : i = 2 := by
    have hi4 : i < 4 := by
      rcases List.get?_eq_some.mp hi with ⟨hlt, _⟩
      simpa using hlt
    interval_cases i
    · exact absurd hi (by decide)
    · exact absurd hi (by decide)
    · rfl
    · exact absurd hi (by decide)
  have hj1 : j = 1 := by
    have hj4 : j < 4 := by
      rcases List.get?_eq_some.mp hj with ⟨hlt, _⟩
      simpa using hlt
    interval_cases j
    · exact absurd hj (by decide)
    · rfl
    · exact absurd hj (by decide)
    · exact absurd hj (by decide)
  omega

end Makfy
